import Mathlib

/-!
Verification development for the KV indexing/query engine of the repository
(worker/src/kv: types.ts, indexes.ts, tokenizer.ts, crud.ts, query.ts and the
bulk-operations module).  The engine fabricates database-like query semantics
over a primitive key-value store through a deterministic key schema, derived
secondary indexes and in-memory set algebra.  The definitions below are a
shallow embedding of that code: JavaScript strings become `String`, JS `Set`
iteration becomes insertion-ordered duplicate-free lists, the store becomes an
explicit association list, and fallible operations return `Except`.
Environment calls (`Date` parsing, id generation, clock) are modelled by
explicit executable functions or taken as parameters, as noted at each site.
-/

namespace GasKV

/-- JS `s.substring(0, n)`: the first `n` characters of `s` (the whole string
when it is shorter than `n`). -/
def substringTo (s : String) (n : Nat) : String := ⟨s.data.take n⟩

/-- JS `o || d` for an optional numeric configuration entry: both `undefined`
and `0` are falsy and fall through to the default. -/
def orDefault (o : Option Nat) (d : Nat) : Nat :=
  match o with
  | some n => if n = 0 then d else n
  | none => d

/-- Per-type indexing configuration (types.ts `TypeConfig`). -/
structure TypeConfig where
  indexedFields : List String
  timeFields : List String
  searchFields : List String
  stopwords : Option (List String) := none
  maxValueLength : Option Nat := none
  maxRecordSize : Option Nat := none
deriving DecidableEq

/-- Default stopword list (types.ts `DEFAULT_STOPWORDS`). -/
def DEFAULT_STOPWORDS : List String :=
  ["the", "a", "an", "and", "or", "but", "in", "on", "at",
   "to", "for", "of", "with", "by", "from", "as", "is", "was",
   "are", "were", "been", "be", "have", "has", "had", "do",
   "does", "did", "will", "would", "should", "could", "may",
   "might", "must", "can", "this", "that", "these", "those"]

/-- Registry entry for the demo type `prompt`. -/
def promptConfig : TypeConfig :=
  { indexedFields := ["category", "isActive", "version"]
    timeFields := ["createdAt", "updatedAt"]
    searchFields := ["name", "description", "content"]
    stopwords := some ["the", "a", "an", "and", "or", "but", "in", "on", "at", "to", "for"]
    maxValueLength := some 1000
    maxRecordSize := some 102400 }

/-- Registry entry for the type `config`. -/
def configConfig : TypeConfig :=
  { indexedFields := ["environment", "category", "isActive"]
    timeFields := ["createdAt", "updatedAt"]
    searchFields := ["key", "description"]
    maxValueLength := some 500
    maxRecordSize := some 51200 }

/-- Registry entry for the type `user`. -/
def userConfig : TypeConfig :=
  { indexedFields := ["email", "role", "status", "department"]
    timeFields := ["createdAt", "updatedAt", "lastLoginAt"]
    searchFields := ["name", "email", "bio"]
    stopwords := some ["the", "a", "an"]
    maxValueLength := some 500
    maxRecordSize := some 51200 }

/-- Registry entry for the type `task`. -/
def taskConfig : TypeConfig :=
  { indexedFields := ["status", "priority", "assignee", "project"]
    timeFields := ["createdAt", "updatedAt", "dueDate", "completedAt"]
    searchFields := ["title", "description"]
    stopwords := some ["the", "a", "an", "to", "for"]
    maxValueLength := some 1000
    maxRecordSize := some 102400 }

/-- The closed-world type registry (types.ts `TYPE_CONFIGS`). -/
def TYPE_CONFIGS : List (String × TypeConfig) :=
  [("prompt", promptConfig), ("config", configConfig),
   ("user", userConfig), ("task", taskConfig)]

/-- Registry lookup (types.ts `getTypeConfig`); the source throws for an
unregistered type, modelled as `none`. -/
def getTypeConfig (type : String) : Option TypeConfig :=
  (TYPE_CONFIGS.find? (fun p => p.1 == type)).map (·.2)

/-- Character class of the `[a-zA-Z0-9_-]` identifier pattern used by
`validateTypeAndId`. -/
def isSafeChar (c : Char) : Bool :=
  (decide ('a' ≤ c) && decide (c ≤ 'z')) || (decide ('A' ≤ c) && decide (c ≤ 'Z')) ||
  (decide ('0' ≤ c) && decide (c ≤ '9')) || c == '_' || c == '-'

/-- Test of the full-string pattern `^[a-zA-Z0-9_-]+$`. -/
def matchesSafePattern (s : String) : Bool :=
  !(s.data.isEmpty) && s.data.all isSafeChar

/-- Identifier validation (types.ts `validateTypeAndId`): pattern check on the
type, then on the id, then the two length bounds; each failure throws. -/
def validateTypeAndId (type id : String) : Except String Unit :=
  if !(matchesSafePattern type) then .error ("Invalid type: " ++ type)
  else if !(matchesSafePattern id) then .error ("Invalid id: " ++ id)
  else if 50 < type.length then .error ("Type too long: " ++ type)
  else if 200 < id.length then .error ("ID too long: " ++ id)
  else .ok ()

/-! ### Decimal printing and the reverse-timestamp encoding (indexes.ts) -/

/-- Decimal digit character. -/
def digitChar (d : Nat) : Char :=
  match d with
  | 0 => '0' | 1 => '1' | 2 => '2' | 3 => '3' | 4 => '4'
  | 5 => '5' | 6 => '6' | 7 => '7' | 8 => '8' | 9 => '9'
  | _ => '*'

/-- Fuel-driven helper of `natDecDigits`; the fuel only bounds the recursion
depth and `natDecDigits` always supplies enough. -/
def natDecAux : Nat → Nat → List Char
  | 0, n => [digitChar n]
  | fuel + 1, n =>
    if n < 10 then [digitChar n]
    else natDecAux fuel (n / 10) ++ [digitChar (n % 10)]

/-- Most-significant-first decimal digits of a natural number. -/
def natDecDigits (n : Nat) : List Char := natDecAux n n

/-- Decimal string of a natural number. -/
def natDecStr (n : Nat) : String := ⟨natDecDigits n⟩

/-- JS `String(n)` for an integral number. -/
def jsIntString (n : Int) : String :=
  if n < 0 then "-" ++ natDecStr (-n).toNat else natDecStr n.toNat

/-- JS `s.padStart(20, '0')`. -/
def padStart20 (s : String) : String :=
  ⟨List.replicate (20 - s.length) '0' ++ s.data⟩

/-- Numeric value of a decimal digit character, when it is one. -/
def digitVal (c : Char) : Option Nat :=
  if '0' ≤ c ∧ c ≤ '9' then some (c.toNat - '0'.toNat) else none

/-- Reads a two-digit decimal number. -/
def read2 (a b : Char) : Option Nat := do
  let x ← digitVal a
  let y ← digitVal b
  pure (10 * x + y)

/-- Reads a three-digit decimal number. -/
def read3 (a b c : Char) : Option Nat := do
  let x ← digitVal a
  let y ← read2 b c
  pure (100 * x + y)

/-- Reads a four-digit decimal number. -/
def read4 (a b c d : Char) : Option Nat := do
  let x ← read2 a b
  let y ← read2 c d
  pure (100 * x + y)

/-- Gregorian leap-year test. -/
def isLeapYear (y : Nat) : Bool :=
  (y % 4 == 0 && y % 100 != 0) || y % 400 == 0

/-- Number of days in a month of a given year. -/
def daysInMonth (y m : Nat) : Nat :=
  match m with
  | 1 => 31 | 2 => if isLeapYear y then 29 else 28 | 3 => 31
  | 4 => 30 | 5 => 31 | 6 => 30 | 7 => 31 | 8 => 31
  | 9 => 30 | 10 => 31 | 11 => 30 | 12 => 31
  | _ => 0

/-- Days from 1970-01-01 to the civil date y-m-d (the standard
days-from-civil calendar computation). -/
def daysFromCivil (y m d : Nat) : Int :=
  let y' : Int := if m ≤ 2 then (y : Int) - 1 else (y : Int)
  let era : Int := (if 0 ≤ y' then y' else y' - 399) / 400
  let yoe : Int := y' - era * 400
  let doy : Int := (153 * (if 2 < m then (m : Int) - 3 else (m : Int) + 9) + 2) / 5 + (d : Int) - 1
  let doe : Int := yoe * 365 + yoe / 4 - yoe / 100 + doy
  era * 146097 + doe - 719468

/-- Modelled environment call: `new Date(iso).getTime()` restricted to the
canonical ISO-8601 format `YYYY-MM-DDTHH:MM:SS.mmmZ` produced by
`Date.prototype.toISOString`; any other input is treated as an invalid date
(`NaN` in JS, `none` here).  Field bounds are validated as the JS `Date`
parser does. -/
def dateParseMs (s : String) : Option Int :=
  match s.data with
  | [y1, y2, y3, y4, da1, mo1, mo2, da2, d1, d2, tSep,
     h1, h2, co1, mi1, mi2, co2, s1, s2, dot, f1, f2, f3, zSep] =>
    if da1 = '-' ∧ da2 = '-' ∧ tSep = 'T' ∧ co1 = ':' ∧ co2 = ':' ∧ dot = '.' ∧ zSep = 'Z' then do
      let y ← read4 y1 y2 y3 y4
      let mo ← read2 mo1 mo2
      let d ← read2 d1 d2
      let hh ← read2 h1 h2
      let mi ← read2 mi1 mi2
      let ss ← read2 s1 s2
      let ms ← read3 f1 f2 f3
      if 1 ≤ mo ∧ mo ≤ 12 ∧ 1 ≤ d ∧ d ≤ daysInMonth y mo ∧ hh ≤ 23 ∧ mi ≤ 59 ∧ ss ≤ 59 then
        some ((daysFromCivil y mo d * 86400 + (hh : Int) * 3600 + (mi : Int) * 60 + (ss : Int)) * 1000 + (ms : Int))
      else none
    else none
  | _ => none

/-- Epoch milliseconds of the far-future pivot `2099-12-31T23:59:59.999Z`
baked into the reverse-timestamp scheme (indexes.ts `getReverseTimestamp`). -/
def pivotMs : Int := (dateParseMs "2099-12-31T23:59:59.999Z").getD 0

/-- Reverse timestamp (indexes.ts `getReverseTimestamp`): pivot minus the
timestamp in milliseconds, zero-padded to 20 digits.  An unparseable
timestamp gives `NaN` in JS, whose stringification is padded the same way. -/
def getReverseTimestamp (isoTimestamp : String) : String :=
  match dateParseMs isoTimestamp with
  | some t => padStart20 (jsIntString (pivotMs - t))
  | none => padStart20 "NaN"

/-! ### Key schema (indexes.ts) -/

/-- Common shape of all four derived-index keys:
`tag:<type>:<field>:<segment>:<id>`. -/
def tagKey (tag type field seg id : String) : String :=
  tag ++ ":" ++ type ++ ":" ++ field ++ ":" ++ seg ++ ":" ++ id

/-- Common shape of the derived-index listing prefixes. -/
def tagPfx (tag type field seg : String) : String :=
  tag ++ ":" ++ type ++ ":" ++ field ++ ":" ++ seg ++ ":"

/-- Primary record key `obj:<type>:<id>`. -/
def objectKey (type id : String) : String :=
  "obj:" ++ type ++ ":" ++ id

/-- Equality index key `idx:<type>:<field>:<value>:<id>`; the value is
truncated to 500 characters inside the key builder. -/
def equalityIndexKey (type field value id : String) : String :=
  tagKey "idx" type field (substringTo value 500) id

/-- Equality index listing prefix, truncating identically. -/
def equalityIndexPrefixStr (type field value : String) : String :=
  tagPfx "idx" type field (substringTo value 500)

/-- Ascending time index key `ts:<type>:<field>:<timestamp>:<id>`; ISO
timestamps are used directly. -/
def timeIndexKey (type field timestamp id : String) : String :=
  tagKey "ts" type field timestamp id

/-- Ascending time index listing prefix. -/
def timeIndexPrefixStr (type field : String) : String :=
  "ts:" ++ type ++ ":" ++ field ++ ":"

/-- Descending time index key
`ts-desc:<type>:<field>:<reverseTimestamp>:<id>`. -/
def reverseTimeIndexKey (type field timestamp id : String) : String :=
  tagKey "ts-desc" type field (getReverseTimestamp timestamp) id

/-- Descending time index listing prefix. -/
def reverseTimeIndexPrefixStr (type field : String) : String :=
  "ts-desc:" ++ type ++ ":" ++ field ++ ":"

/-- Inverted search index key `inv:<type>:<field>:<token>:<id>`. -/
def invertedIndexKey (type field token id : String) : String :=
  tagKey "inv" type field token id

/-- Inverted search index listing prefix. -/
def invertedIndexPrefixStr (type field token : String) : String :=
  tagPfx "inv" type field token

/-- Suffix of a character list after its last colon (the whole list when no
colon occurs). -/
def afterLastColon (cs : List Char) : List Char :=
  cs.foldl (fun acc c => if c = ':' then [] else acc ++ [c]) []

/-- Extracts the id from an index key (indexes.ts `extractIdFromKey`): the
source splits on `:` and takes the last part, which is exactly the suffix
after the last colon. -/
def extractIdFromKey (key : String) : String :=
  ⟨afterLastColon key.data⟩

/-- Truncation applied by the CRUD layer before a value is embedded into an
equality index key (crud.ts: `String(value).substring(0, config.maxValueLength
|| 1000)`). -/
def indexedValueStr (config : TypeConfig) (value : String) : String :=
  substringTo value (orDefault config.maxValueLength 1000)

/-! ### Tokenizer (tokenizer.ts) -/

/-- Character class `[a-z0-9]` used by the tokenizer after lowercasing. -/
def isTokenChar (c : Char) : Bool :=
  (decide ('a' ≤ c) && decide (c ≤ 'z')) || (decide ('0' ≤ c) && decide (c ≤ '9'))

/-- Splits a character list at every non-alphanumeric character.  The source
splits on runs (`/[^a-z0-9]+/`); splitting at single characters differs from
that only by extra empty pieces, which the tokenizer filter drops
immediately afterwards. -/
def splitTokensAux (acc : List Char) : List Char → List String
  | [] => [⟨acc.reverse⟩]
  | c :: cs =>
    if isTokenChar c then splitTokensAux (c :: acc) cs
    else (⟨acc.reverse⟩ : String) :: splitTokensAux [] cs

/-- Helper of `jsSetDedup`: keeps, in order, the elements not seen before. -/
def jsSetDedupAux (seen : List String) : List String → List String
  | [] => []
  | x :: xs =>
    if x ∈ seen then jsSetDedupAux seen xs
    else x :: jsSetDedupAux (x :: seen) xs

/-- Insertion-ordered deduplication: the effect of pouring a list into a JS
`Set` and iterating it (first occurrence kept, order preserved). -/
def jsSetDedup (l : List String) : List String := jsSetDedupAux [] l

/-- Tokenizer (tokenizer.ts `tokenize`): lowercase, split on non-alphanumeric
characters, drop empty, out-of-length and stopword tokens, deduplicate. -/
def tokenize (text : String) (stopwords : List String := DEFAULT_STOPWORDS)
    (minLength : Nat := 2) (maxLength : Nat := 50) : List String :=
  if text = "" then []
  else
    jsSetDedup ((splitTokensAux [] text.toLower.data).filter
      (fun token =>
        if token = "" then false
        else if token.length < minLength ∨ maxLength < token.length then false
        else if token ∈ stopwords then false
        else true))

/-- Token-set diff (tokenizer.ts `diffTokenSets`): returns
`(added, removed)`. -/
def diffTokenSets (oldTokens newTokens : List String) :
    List String × List String :=
  (newTokens.filter (fun t => !(oldTokens.contains t)),
   oldTokens.filter (fun t => !(newTokens.contains t)))

/-! ### Records and the primitive store -/

/-- A stored record (types.ts `BaseRecord`): the fixed envelope plus the open
field map.  Field values are modelled as strings; the JS-level
stringification of numbers and booleans (`String(value)`) happens before the
boundary of this model.  The open map never holds the four envelope keys. -/
structure BaseRecord where
  id : String
  type : String
  createdAt : String
  updatedAt : String
  fields : List (String × String)
deriving DecidableEq

/-- The four envelope keys that the record spread always overrides. -/
def reservedKeys : List String := ["id", "type", "createdAt", "updatedAt"]

/-- JS property access `record[f]` on a record value. -/
def getField (r : BaseRecord) (f : String) : Option String :=
  if f = "id" then some r.id
  else if f = "type" then some r.type
  else if f = "createdAt" then some r.createdAt
  else if f = "updatedAt" then some r.updatedAt
  else (r.fields.find? (fun p => p.1 == f)).map (·.2)

/-- Open field map produced by the record spread
`{...data, id, type, createdAt, updatedAt}`: the explicit envelope entries
override any same-named entries of `data`. -/
def mkOpenFields (data : List (String × String)) : List (String × String) :=
  data.filter (fun p => !(reservedKeys.contains p.1))

/-- Per-field tokenization (tokenizer.ts `tokenizeFields`): applies `tokenize`
to each configured search field that is present (string-valued in JS; every
modelled field value is a string), omitting fields with no tokens.  An
`undefined` stopword list falls back to the default, as the JS default
parameter does. -/
def tokenizeFields (record : BaseRecord) (fields : List String)
    (stopwords : Option (List String)) : List (String × List String) :=
  fields.filterMap (fun field =>
    match getField record field with
    | some value =>
      let tokens := tokenize value (stopwords.getD DEFAULT_STOPWORDS)
      if tokens.isEmpty then none else some (field, tokens)
    | none => none)

/-- Tokens of one search field of a record (the set `tokenizeFields` carries
for that field, empty when the field is absent or yields nothing). -/
def tokensOfField (record : BaseRecord) (config : TypeConfig) (field : String) :
    List String :=
  match getField record field with
  | some value => tokenize value (config.stopwords.getD DEFAULT_STOPWORDS)
  | none => []

/-- The primitive store: the primary records (the `obj:` namespace, with the
JSON round trip elided) and the set of present derived-index keys (the
`idx:`/`ts:`/`ts-desc:`/`inv:` namespaces, all of which store the constant
value `"1"`). -/
structure KVState where
  objects : List (String × BaseRecord)
  indexes : List String
deriving DecidableEq

/-- Store read of a primary record. -/
def getObject (st : KVState) (k : String) : Option BaseRecord :=
  (st.objects.find? (fun p => p.1 == k)).map (·.2)

/-- Store write of a primary record (`kv.put` overwrites). -/
def putObject (st : KVState) (k : String) (r : BaseRecord) : KVState :=
  { st with objects := (k, r) :: st.objects.filter (fun p => !(p.1 == k)) }

/-- Store delete of a primary record (`kv.delete` is idempotent). -/
def deleteObject (st : KVState) (k : String) : KVState :=
  { st with objects := st.objects.filter (fun p => !(p.1 == k)) }

/-- Store write of a derived-index key. -/
def putIndexKey (st : KVState) (k : String) : KVState :=
  { st with indexes := if k ∈ st.indexes then st.indexes else k :: st.indexes }

/-- Store delete of a derived-index key. -/
def deleteIndexKey (st : KVState) (k : String) : KVState :=
  { st with indexes := st.indexes.filter (fun x => !(x == k)) }

/-! ### Index maintenance (indexes.ts `IndexBatch`, crud.ts) -/

/-- One queued batch operation (indexes.ts `IndexOperation`); `value = none`
marks a delete. -/
structure IndexOperation where
  key : String
  value : Option String
deriving DecidableEq

/-- Queued index write (`IndexBatch.put`, always storing `"1"`). -/
def batchPut (k : String) : IndexOperation := ⟨k, some "1"⟩

/-- Queued index delete (`IndexBatch.delete`). -/
def batchDelete (k : String) : IndexOperation := ⟨k, none⟩

/-- Keys of the queued writes, in queue order (the `puts` group built by
`IndexBatch.execute`). -/
def putsOf (batch : List IndexOperation) : List String :=
  batch.filterMap (fun op => if op.value.isSome then some op.key else none)

/-- Keys of the queued deletes, in queue order (the `deletes` group). -/
def deletesOf (batch : List IndexOperation) : List String :=
  batch.filterMap (fun op => if op.value.isSome then none else some op.key)

/-- Batch execution (`IndexBatch.execute`): the source groups the queued
operations into all puts followed by all deletes and fires the whole group
concurrently via `Promise.all`.  The model applies them sequentially in that
grouped order, which is one admissible serialization of the concurrent
batch; when a put and a delete of the same key share a batch the real final
state is a race, and this serialization resolves it in favour of the
delete. -/
def executeBatch (st : KVState) (batch : List IndexOperation) : KVState :=
  let st1 := (putsOf batch).foldl putIndexKey st
  (deletesOf batch).foldl deleteIndexKey st1

/-- Index creation batch (crud.ts `createIndexes`): one equality write per
present indexed field (value truncated at the CRUD layer), an
ascending/descending pair per truthy time field, one inverted write per
token per search field. -/
def createIndexesOps (record : BaseRecord) (config : TypeConfig) :
    List IndexOperation :=
  (config.indexedFields.filterMap (fun field =>
    (getField record field).map (fun value =>
      batchPut (equalityIndexKey record.type field (indexedValueStr config value) record.id))))
  ++ (config.timeFields.flatMap (fun field =>
    match getField record field with
    | some timestamp =>
      if timestamp = "" then []
      else [batchPut (timeIndexKey record.type field timestamp record.id),
            batchPut (reverseTimeIndexKey record.type field timestamp record.id)]
    | none => []))
  ++ ((tokenizeFields record config.searchFields config.stopwords).flatMap (fun ft =>
    ft.2.map (fun token => batchPut (invertedIndexKey record.type ft.1 token record.id))))

/-- Incremental index update batch (crud.ts `updateIndexes`): per indexed
field, delete the old key and write the new one only when the value changed;
per time field likewise for the ascending/descending pair; per search field,
delete only removed tokens and write only added ones. -/
def updateIndexesOps (oldRecord newRecord : BaseRecord) (config : TypeConfig) :
    List IndexOperation :=
  (config.indexedFields.flatMap (fun field =>
    if getField oldRecord field ≠ getField newRecord field then
      (match getField oldRecord field with
       | some v =>
         [batchDelete (equalityIndexKey newRecord.type field (indexedValueStr config v) newRecord.id)]
       | none => [])
      ++ (match getField newRecord field with
       | some v =>
         [batchPut (equalityIndexKey newRecord.type field (indexedValueStr config v) newRecord.id)]
       | none => [])
    else []))
  ++ (config.timeFields.flatMap (fun field =>
    if getField oldRecord field ≠ getField newRecord field then
      (match getField oldRecord field with
       | some t =>
         if t = "" then []
         else [batchDelete (timeIndexKey newRecord.type field t newRecord.id),
               batchDelete (reverseTimeIndexKey newRecord.type field t newRecord.id)]
       | none => [])
      ++ (match getField newRecord field with
       | some t =>
         if t = "" then []
         else [batchPut (timeIndexKey newRecord.type field t newRecord.id),
               batchPut (reverseTimeIndexKey newRecord.type field t newRecord.id)]
       | none => [])
    else []))
  ++ (config.searchFields.flatMap (fun field =>
    (diffTokenSets (tokensOfField oldRecord config field)
        (tokensOfField newRecord config field)).2.map
      (fun token => batchDelete (invertedIndexKey newRecord.type field token newRecord.id))
    ++ (diffTokenSets (tokensOfField oldRecord config field)
        (tokensOfField newRecord config field)).1.map
      (fun token => batchPut (invertedIndexKey newRecord.type field token newRecord.id))))

/-- Index deletion batch (crud.ts `deleteIndexes`): mirrors `createIndexes`
with deletes. -/
def deleteIndexesOps (record : BaseRecord) (config : TypeConfig) :
    List IndexOperation :=
  (config.indexedFields.filterMap (fun field =>
    (getField record field).map (fun value =>
      batchDelete (equalityIndexKey record.type field (indexedValueStr config value) record.id))))
  ++ (config.timeFields.flatMap (fun field =>
    match getField record field with
    | some timestamp =>
      if timestamp = "" then []
      else [batchDelete (timeIndexKey record.type field timestamp record.id),
            batchDelete (reverseTimeIndexKey record.type field timestamp record.id)]
    | none => []))
  ++ ((tokenizeFields record config.searchFields config.stopwords).flatMap (fun ft =>
    ft.2.map (fun token => batchDelete (invertedIndexKey record.type ft.1 token record.id))))

/-! ### Record CRUD (crud.ts) -/

/-- Registry lookup as the fallible call the CRUD layer makes. -/
def getTypeConfigE (type : String) : Except String TypeConfig :=
  match getTypeConfig type with
  | some config => .ok config
  | none => .error ("Unknown type: " ++ type)

/-- Modelled serialized length of a record, standing in for
`JSON.stringify(record).length`: two braces plus one `"key":"value",` shaped
contribution per entry.  Only its comparison against `maxRecordSize`
matters to any claim. -/
def entrySize (k v : String) : Nat := k.length + v.length + 6

/-- Serialized record size. -/
def recordSize (r : BaseRecord) : Nat :=
  2 + entrySize "id" r.id + entrySize "type" r.type
    + entrySize "createdAt" r.createdAt + entrySize "updatedAt" r.updatedAt
    + (r.fields.map (fun p => entrySize p.1 p.2)).sum

/-- Size guard `config.maxRecordSize && recordSize > config.maxRecordSize`
(JS: a missing or zero bound disables the check). -/
def sizeExceeded (config : TypeConfig) (size : Nat) : Bool :=
  match config.maxRecordSize with
  | some m => if m = 0 then false else decide (m < size)
  | none => false

/-- Record fetch (crud.ts `getRecord`): validates the identifiers, then reads
the primary key; absence is `none`, not an error. -/
def getRecord (st : KVState) (type id : String) :
    Except String (Option BaseRecord) := do
  let _ ← validateTypeAndId type id
  .ok (getObject st (objectKey type id))

/-- Record creation (crud.ts `createRecord`).  The generated-or-provided id
and the clock reading are passed in as the environment inputs they are. -/
def createRecord (st : KVState) (type : String) (data : List (String × String))
    (id now : String) : Except String (BaseRecord × KVState) := do
  let config ← getTypeConfigE type
  let _ ← validateTypeAndId type id
  let existing ← getRecord st type id
  if existing.isSome then .error ("Record already exists: " ++ type ++ ":" ++ id)
  else
    let record : BaseRecord := ⟨id, type, now, now, mkOpenFields data⟩
    if sizeExceeded config (recordSize record) then .error "Record too large"
    else
      let st1 := putObject st (objectKey type id) record
      .ok (record, executeBatch st1 (createIndexesOps record config))

/-- Record update, full replacement (crud.ts `updateRecord`): preserves
`createdAt`, restamps `updatedAt`, rewrites the primary key and applies the
incremental index diff against the previous record. -/
def updateRecord (st : KVState) (type id : String)
    (data : List (String × String)) (now : String) :
    Except String (BaseRecord × KVState) := do
  let config ← getTypeConfigE type
  let _ ← validateTypeAndId type id
  let oldRecord? ← getRecord st type id
  match oldRecord? with
  | none => .error ("Record not found: " ++ type ++ ":" ++ id)
  | some oldRecord =>
    let newRecord : BaseRecord := ⟨id, type, oldRecord.createdAt, now, mkOpenFields data⟩
    if sizeExceeded config (recordSize newRecord) then .error "Record too large"
    else
      let st1 := putObject st (objectKey type id) newRecord
      .ok (newRecord, executeBatch st1 (updateIndexesOps oldRecord newRecord config))

/-- Shallow spread merge `{...oldRecord, ...patch}` restricted to the open
field map (the envelope entries of the merge are reconstructed identically
by `updateRecord`). -/
def mergeSpread (oldRecord : BaseRecord) (patch : List (String × String)) :
    List (String × String) :=
  oldRecord.fields.filter (fun p => !(patch.any (fun q => q.1 == p.1))) ++ patch

/-- Record patch (crud.ts `patchRecord`): fetch, shallow-merge, delegate to
`updateRecord`. -/
def patchRecord (st : KVState) (type id : String)
    (patch : List (String × String)) (now : String) :
    Except String (BaseRecord × KVState) := do
  let oldRecord? ← getRecord st type id
  match oldRecord? with
  | none => .error ("Record not found: " ++ type ++ ":" ++ id)
  | some oldRecord => updateRecord st type id (mergeSpread oldRecord patch) now

/-- Record deletion (crud.ts `deleteRecord`): fetch; absent means succeed as
a no-op; otherwise delete the primary key and all derived keys computed from
the fetched record. -/
def deleteRecord (st : KVState) (type id : String) : Except String KVState := do
  let config ← getTypeConfigE type
  let _ ← validateTypeAndId type id
  let record? ← getRecord st type id
  match record? with
  | none => .ok st
  | some record =>
    let st1 := deleteObject st (objectKey type id)
    .ok (executeBatch st1 (deleteIndexesOps record config))

/-! ### Bulk operations -/

/-- Per-item bulk result (`BulkItemResult`). -/
structure BulkItemResult where
  ok : Bool
  id : String
  operation : Option String
  error : Option String
deriving DecidableEq

/-- Aggregate bulk result (`BulkUpsertResult`). -/
structure BulkUpsertResult where
  results : List BulkItemResult
  succeeded : Nat
  failed : Nat
deriving DecidableEq

/-- The per-item loop of `bulkPatch`: each `patchRecord` runs inside a
try/catch, a failure is converted into a per-item error result and the loop
continues on the unchanged store. -/
def bulkPatchLoop (st : KVState) (type : String)
    (patch : List (String × String)) (now : String) :
    List String → List BulkItemResult × Nat × Nat × KVState
  | [] => ([], 0, 0, st)
  | id :: rest =>
    match patchRecord st type id patch now with
    | .ok (_, st') =>
      let (rs, s, f, stFin) := bulkPatchLoop st' type patch now rest
      (⟨true, id, some "updated", none⟩ :: rs, s + 1, f, stFin)
    | .error e =>
      let (rs, s, f, stFin) := bulkPatchLoop st type patch now rest
      (⟨false, id, none, some e⟩ :: rs, s, f + 1, stFin)

/-- Bulk patch (bulk module `bulkPatch`): validates the type and the batch
size synchronously, then iterates `patchRecord` with per-item failure
isolation. -/
def bulkPatch (st : KVState) (type : String) (ids : List String)
    (patch : List (String × String)) (now : String) :
    Except String (BulkUpsertResult × KVState) := do
  let _config ← getTypeConfigE type
  if 100 < ids.length then .error ("Too many IDs: " ++ natDecStr ids.length)
  else
    let (rs, s, f, stFin) := bulkPatchLoop st type patch now ids
    .ok (⟨rs, s, f⟩, stFin)

/-! ### Query engine (query.ts) -/

/-- One equality filter (query.ts `QueryFilter`); the value is stringified by
the key builders, so it is modelled as a string. -/
structure QueryFilter where
  field : String
  value : String
deriving DecidableEq

/-- Sort direction. -/
inductive SortDirection where
  | asc
  | desc
deriving DecidableEq

/-- Sort request. -/
structure SortSpec where
  field : String
  direction : SortDirection
deriving DecidableEq

/-- Query options (query.ts `QueryOptions`).  The source names the first
filter list `where`, a reserved word here.  The raw `prefix` pass-through
option is declared in the source interface but never read by `executeQuery`
and is omitted. -/
structure QueryOptions where
  whereF : Option (List QueryFilter) := none
  andF : Option (List QueryFilter) := none
  orF : Option (List QueryFilter) := none
  q : Option String := none
  searchFields : Option (List String) := none
  sort : Option SortSpec := none
  limit : Option Nat := none
  cursor : Option String := none
deriving DecidableEq

/-- Prefix test on store keys, as the primitive store's `list(prefix)`
performs it. -/
def hasPfx (p k : String) : Bool := p.data.isPrefixOf k.data

/-- Exhaustive prefix listing (query.ts `listAllKeys`): the cursor-paging
do/while loop accumulates, in the store's lexicographic key order, every key
carrying the prefix until the cursor is exhausted or `maxKeys` keys have
been gathered.  The store is the ordered list of all present keys. -/
def listAllKeys (store : List String) (p : String) (maxKeys : Nat := 1000) :
    List String :=
  (store.filter (hasPfx p)).take maxKeys

/-- Candidate ids of one equality filter (query.ts
`getIdsForEqualityFilter`): list the filter's equality-index prefix and
collect the trailing id segments into a set. -/
def getIdsForEqualityFilter (store : List String) (type field value : String) :
    List String :=
  jsSetDedup ((listAllKeys store (equalityIndexPrefixStr type field value)).map
    extractIdFromKey)

/-- Candidate ids of one search token in one field (query.ts
`getIdsForSearchToken`). -/
def getIdsForSearchToken (store : List String) (type field token : String) :
    List String :=
  jsSetDedup ((listAllKeys store (invertedIndexPrefixStr type field token)).map
    extractIdFromKey)

/-- Set intersection as the source computes it: iterate the first set, keep
members of the second. -/
def intersectSets (a b : List String) : List String :=
  a.filter (fun x => b.contains x)

/-- Union of several sets in iteration order (query.ts `union`). -/
def unionSets (sets : List (List String)) : List String :=
  jsSetDedup sets.flatten

/-- Union step `new Set([...ids, ...orIds])` of `executeQuery`. -/
def listUnion (a b : List String) : List String :=
  jsSetDedup (a ++ b)

/-- The sequential intersection loop of `executeAndFilters`, short-circuiting
to the empty set the moment an intermediate result is empty. -/
def andIntersectLoop (acc : List String) : List (List String) → List String
  | [] => acc
  | s :: rest =>
    let acc' := intersectSets acc s
    if acc'.isEmpty then acc' else andIntersectLoop acc' rest

/-- AND resolution (query.ts `executeAndFilters`): resolve each filter to an
id set, sort the sets by ascending cardinality (the JS in-place comparison
sort, modelled by insertion sort), then intersect sequentially from the
smallest. -/
def executeAndFilters (store : List String) (type : String)
    (filters : List QueryFilter) : List String :=
  if filters.isEmpty then []
  else
    let idSets := filters.map (fun f => getIdsForEqualityFilter store type f.field f.value)
    match List.insertionSort (fun a b : List String => a.length ≤ b.length) idSets with
    | [] => []
    | s :: rest => andIntersectLoop s rest

/-- OR resolution (query.ts `executeOrFilters`): union of the per-filter id
sets. -/
def executeOrFilters (store : List String) (type : String)
    (filters : List QueryFilter) : List String :=
  unionSets (filters.map (fun f => getIdsForEqualityFilter store type f.field f.value))

/-- Search resolution (query.ts `executeSearch`): tokenize the query, collect
per-token ids across all (or the overridden) search fields, union across
tokens — any-token-matches semantics. -/
def executeSearch (store : List String) (type query : String)
    (searchFields : Option (List String)) (config : TypeConfig) : List String :=
  let fields := searchFields.getD config.searchFields
  let tokens := tokenize query (config.stopwords.getD DEFAULT_STOPWORDS)
  if tokens.isEmpty then []
  else
    unionSets (tokens.map (fun token =>
      jsSetDedup (fields.flatMap (fun field =>
        getIdsForSearchToken store type field token))))

/-- Unfiltered id listing (query.ts `listAllIds`). -/
def listAllIds (store : List String) (type : String) (limit : Nat) :
    List String :=
  jsSetDedup ((listAllKeys store ("obj:" ++ type ++ ":") limit).map extractIdFromKey)

/-- JS truthiness of the optional search text. -/
def qTruthy (q? : Option String) : Bool :=
  match q? with
  | some q => q != ""
  | none => false

/-- The fast-path guard of `executeQuery`: no filters, no search, no sort
(an empty search string is falsy, an empty filter array is truthy). -/
def simpleListPath (options : QueryOptions) : Bool :=
  options.whereF == none && options.andF == none && options.orF == none &&
  !(qTruthy options.q) && options.sort == none

/-- Candidate-id stage of `executeQuery` (query.ts lines 80–112): search text
wins over AND filters, otherwise AND filters, otherwise the unfiltered
listing; the OR result is then unioned in.  `none` covers the two ways no
candidate set is formed: an unregistered type (the source throws) and the
fast path (the source answers by a direct paginated listing). -/
def executeQueryCandidateIds (store : List String) (type : String)
    (options : QueryOptions) : Option (List String) :=
  match getTypeConfig type with
  | none => none
  | some config =>
    if simpleListPath options then none
    else
      let limit := min (orDefault options.limit 50) 200
      let andFilters := options.whereF.getD [] ++ options.andF.getD []
      let ids :=
        if qTruthy options.q then
          executeSearch store type (options.q.getD "") options.searchFields config
        else if !andFilters.isEmpty then executeAndFilters store type andFilters
        else listAllIds store type limit
      some (match options.orF with
        | some orFilters =>
          if orFilters.isEmpty then ids
          else listUnion ids (executeOrFilters store type orFilters)
        | none => ids)

/-- Sort resolution (query.ts `applySorting`): only time fields are sortable;
scan the ascending or descending time-index prefix and keep, in the scan's
key order, the ids that are in the candidate set. -/
def applySorting (store : List String) (type : String) (ids : List String)
    (sort : SortSpec) (config : TypeConfig) : Except String (List String) :=
  if sort.field ∉ config.timeFields then
    .error ("Cannot sort by " ++ sort.field ++ ": not a time-indexed field")
  else
    let p :=
      match sort.direction with
      | .asc => timeIndexPrefixStr type sort.field
      | .desc => reverseTimeIndexPrefixStr type sort.field
    let keys := listAllKeys store p
    .ok (jsSetDedup ((keys.map extractIdFromKey).filter (fun id => ids.contains id)))

/-! ### The derived-index invariant (spec section 3, crud.ts) -/

/-- Absence of the key-schema delimiter from a string. -/
abbrev colonFree (s : String) : Prop := ':' ∉ s.data

/-- Sanity of a type configuration: no configured field name contains the
key delimiter.  Every registry entry satisfies this. -/
def goodConfig (config : TypeConfig) : Prop :=
  (∀ F ∈ config.indexedFields, colonFree F) ∧
  (∀ F ∈ config.timeFields, colonFree F) ∧
  (∀ F ∈ config.searchFields, colonFree F)

/-- Equality-index exactness for one record: for each indexed field, exactly
the key for the (doubly) truncated current value is present and no key for
any other value segment is. -/
def eqIndexExact (st : KVState) (config : TypeConfig) (r : BaseRecord) : Prop :=
  ∀ F ∈ config.indexedFields, ∀ v : String,
    (tagKey "idx" r.type F v r.id ∈ st.indexes ↔
      ∃ w, getField r F = some w ∧ v = substringTo (indexedValueStr config w) 500)

/-- Ascending time-index exactness for one record. -/
def timeIndexExact (st : KVState) (config : TypeConfig) (r : BaseRecord) : Prop :=
  ∀ F ∈ config.timeFields, ∀ t : String,
    (tagKey "ts" r.type F t r.id ∈ st.indexes ↔
      (getField r F = some t ∧ t ≠ ""))

/-- Descending time-index exactness for one record. -/
def revIndexExact (st : KVState) (config : TypeConfig) (r : BaseRecord) : Prop :=
  ∀ F ∈ config.timeFields, ∀ s : String,
    (tagKey "ts-desc" r.type F s r.id ∈ st.indexes ↔
      ∃ t, getField r F = some t ∧ t ≠ "" ∧ s = getReverseTimestamp t)

/-- Inverted-index exactness for one record. -/
def invIndexExact (st : KVState) (config : TypeConfig) (r : BaseRecord) : Prop :=
  ∀ F ∈ config.searchFields, ∀ token : String,
    (tagKey "inv" r.type F token r.id ∈ st.indexes ↔
      token ∈ tokensOfField r config F)

/-- The derived-index invariant of spec section 3 for one record: exactly the
equality, time-pair and inverted keys implied by the record are present, and
none for stale values. -/
def recordIndexed (st : KVState) (config : TypeConfig) (r : BaseRecord) : Prop :=
  eqIndexExact st config r ∧ timeIndexExact st config r ∧
  revIndexExact st config r ∧ invIndexExact st config r

/-- No derived key of any configured field remains for the given (type, id). -/
def noDerivedKeys (st : KVState) (config : TypeConfig) (type id : String) : Prop :=
  (∀ F ∈ config.indexedFields, ∀ v : String, tagKey "idx" type F v id ∉ st.indexes) ∧
  (∀ F ∈ config.timeFields, ∀ t : String, tagKey "ts" type F t id ∉ st.indexes) ∧
  (∀ F ∈ config.timeFields, ∀ s : String, tagKey "ts-desc" type F s id ∉ st.indexes) ∧
  (∀ F ∈ config.searchFields, ∀ token : String, tagKey "inv" type F token id ∉ st.indexes)

/-- Collision-freedom of one update: whenever a changed indexed field keeps
the same truncated encoding, or a changed time field keeps the same
reverse-timestamp encoding, the update batch queues a delete and a put of
one and the same key into a single concurrent batch and the key's survival
is a race; this predicate rules those collisions out. -/
def updateCollisionFree (config : TypeConfig) (oldRecord newRecord : BaseRecord) : Prop :=
  (∀ F ∈ config.indexedFields,
    match getField oldRecord F, getField newRecord F with
    | some vo, some vn =>
      vo ≠ vn →
        substringTo (indexedValueStr config vo) 500 ≠ substringTo (indexedValueStr config vn) 500
    | _, _ => True) ∧
  (∀ F ∈ config.timeFields,
    match getField oldRecord F, getField newRecord F with
    | some ta, some tb =>
      ta ≠ tb → ta ≠ "" → tb ≠ "" → getReverseTimestamp ta ≠ getReverseTimestamp tb
    | _, _ => True)

/-! ### Helper functions for the decimal-order arguments -/

/-- Value of a most-significant-first decimal digit list. -/
def valOfDigits : List Char → Nat
  | [] => 0
  | c :: cs => (c.toNat - 48) * 10 ^ cs.length + valOfDigits cs

/-- Decimal digit character test. -/
def isDigitCh (c : Char) : Bool := decide (48 ≤ c.toNat) && decide (c.toNat ≤ 57)

/-! ### Concrete inputs used by the witnesses and counterexamples -/

/-- The equality-index prefix of the filter `status = p` on type `task`. -/
def c3Pfx : String := equalityIndexPrefixStr "task" "status" "p"

/-- A store holding 1001 equality-index keys under one filter prefix: one
thousand ids of the shape `a<i>` followed by the id `zz`. -/
def c3Store : List String :=
  ((List.range 1000).map (fun i => c3Pfx ++ "a" ++ natDecStr i)) ++ [c3Pfx ++ "zz"]

/-- Membership of an id in every per-filter candidate set of an AND query. -/
def andSemantics (store : List String) (type : String)
    (filters : List QueryFilter) (x : String) : Prop :=
  ∀ g ∈ filters, x ∈ getIdsForEqualityFilter store type g.field g.value

/-- Existence in the store of an index key carrying the given prefix whose id
segment is the given id. -/
def keyWitness (store : List String) (p x : String) : Prop :=
  ∃ k ∈ store, hasPfx p k = true ∧ extractIdFromKey k = x

/-- An empty store. -/
def emptyStore : KVState := ⟨[], []⟩

/-- A fixed clock reading. -/
def wNow : String := "2025-01-01T00:00:00.000Z"

/-- A later clock reading. -/
def wNow2 : String := "2025-01-02T00:00:00.000Z"

/-- Concrete outcome of one `createRecord` call, used by witnesses. -/
def c8Out : BaseRecord × KVState :=
  match createRecord emptyStore "task" [("title", "Fix")] "abc" wNow with
  | .ok out => out
  | .error _ => (⟨"", "", "", "", []⟩, emptyStore)

/-- A sorted key listing holding the time-index keys of two `task` records
(ids `a1` and `b2`, created on consecutive days); the `ts-desc:` keys sort
before the `ts:` keys, and within each group by encoded timestamp. -/
def c4Store : List String :=
  [reverseTimeIndexKey "task" "createdAt" wNow2 "b2",
   reverseTimeIndexKey "task" "createdAt" wNow "a1",
   timeIndexKey "task" "createdAt" wNow "a1",
   timeIndexKey "task" "createdAt" wNow2 "b2"]

/-- The `createdAt` value of each record of the concrete sorting store. -/
def c4TsOf (id : String) : String := if id = "a1" then wNow else wNow2

/-- The parsed `createdAt` instant of each record of the sorting store. -/
def c4MsOf (id : String) : Int := if id = "a1" then 1735689600000 else 1735776000000

/-- Candidate id set fed into the concrete sorting calls. -/
def c4Ids : List String := ["a1", "b2"]

/-- Concrete ascending sort outcome. -/
def c4OutA : List String :=
  match applySorting c4Store "task" c4Ids ⟨"createdAt", .asc⟩ taskConfig with
  | .ok out => out
  | .error _ => []

/-- Concrete descending sort outcome. -/
def c4OutD : List String :=
  match applySorting c4Store "task" c4Ids ⟨"createdAt", .desc⟩ taskConfig with
  | .ok out => out
  | .error _ => []

/-! ### Helper lemmas: strings and the key schema -/

theorem str_data_inj {s t : String} (h : s.data = t.data) : s = t :=
  String.toList_inj.mp h

theorem data_mk (l : List Char) : (String.mk l).data = l := rfl

theorem mk_data (s : String) : String.mk s.data = s := rfl

theorem tagKey_data (a b c d e : String) :
    (tagKey a b c d e).data =
      a.data ++ ':' :: (b.data ++ ':' :: (c.data ++ ':' :: (d.data ++ ':' :: e.data))) := by
  simp [tagKey, String.data_append]

theorem tagPfx_append_id (a b c d e : String) :
    tagPfx a b c d ++ e = tagKey a b c d e := by
  simp [tagPfx, tagKey, String.append_assoc]

theorem split_colon_first :
    ∀ (la la' lr lr' : List Char), ':' ∉ la → ':' ∉ la' →
      la ++ ':' :: lr = la' ++ ':' :: lr' → la = la' ∧ lr = lr' := by
  intro la
  induction la with
  | nil =>
    intro la' lr lr' _ h2 heq
    cases la' with
    | nil => simpa using heq
    | cons c' cs' =>
      simp only [List.nil_append, List.cons_append, List.cons.injEq] at heq
      exact absurd (heq.1 ▸ List.mem_cons_self c' cs') h2
  | cons c cs ih =>
    intro la' lr lr' h1 h2 heq
    cases la' with
    | nil =>
      simp only [List.nil_append, List.cons_append, List.cons.injEq] at heq
      exact absurd (heq.1 ▸ List.mem_cons_self c cs) h1
    | cons c' cs' =>
      simp only [List.cons_append, List.cons.injEq] at heq
      have ih' := ih cs' lr lr' (fun hm => h1 (List.mem_cons_of_mem _ hm))
        (fun hm => h2 (List.mem_cons_of_mem _ hm)) heq.2
      exact ⟨by rw [heq.1, ih'.1], ih'.2⟩

theorem split_colon_last (lr lr' li li' : List Char) (h1 : ':' ∉ li) (h2 : ':' ∉ li')
    (heq : lr ++ ':' :: li = lr' ++ ':' :: li') : lr = lr' ∧ li = li' := by
  have hrev : li.reverse ++ ':' :: lr.reverse = li'.reverse ++ ':' :: lr'.reverse := by
    have := congrArg List.reverse heq
    simpa [List.reverse_append, List.append_assoc] using this
  have h1' : ':' ∉ li.reverse := by simpa using h1
  have h2' : ':' ∉ li'.reverse := by simpa using h2
  obtain ⟨ha, hb⟩ := split_colon_first _ _ _ _ h1' h2' hrev
  constructor
  · have := congrArg List.reverse hb
    simpa using this
  · have := congrArg List.reverse ha
    simpa using this

theorem tagKey_inj {a b c d e a' b' c' d' e' : String}
    (ha : colonFree a) (ha' : colonFree a') (hb : colonFree b) (hb' : colonFree b')
    (hc : colonFree c) (hc' : colonFree c') (he : colonFree e) (he' : colonFree e')
    (h : tagKey a b c d e = tagKey a' b' c' d' e') :
    a = a' ∧ b = b' ∧ c = c' ∧ d = d' ∧ e = e' := by
  have hd := congrArg String.data h
  rw [tagKey_data, tagKey_data] at hd
  obtain ⟨h1, hrest⟩ := split_colon_first _ _ _ _ ha ha' hd
  obtain ⟨h2, hrest2⟩ := split_colon_first _ _ _ _ hb hb' hrest
  obtain ⟨h3, hrest3⟩ := split_colon_first _ _ _ _ hc hc' hrest2
  obtain ⟨h4, h5⟩ := split_colon_last _ _ _ _ he he' hrest3
  exact ⟨str_data_inj h1, str_data_inj h2, str_data_inj h3, str_data_inj h4, str_data_inj h5⟩

theorem tagKey_tag_eq {a b c d e a' b' c' d' e' : String}
    (ha : colonFree a) (ha' : colonFree a')
    (h : tagKey a b c d e = tagKey a' b' c' d' e') : a = a' := by
  have hd := congrArg String.data h
  rw [tagKey_data, tagKey_data] at hd
  exact str_data_inj (split_colon_first _ _ _ _ ha ha' hd).1

theorem foldl_token_colonfree (ys : List Char) (h : ':' ∉ ys) :
    ∀ acc, ys.foldl (fun acc c => if c = ':' then [] else acc ++ [c]) acc = acc ++ ys := by
  induction ys with
  | nil => intro acc; simp
  | cons c cs ih =>
    intro acc
    have hc : ¬(c = ':') := fun hcc => h (hcc ▸ List.mem_cons_self c cs)
    simp only [List.foldl_cons, if_neg hc]
    rw [ih (fun hm => h (List.mem_cons_of_mem _ hm))]
    simp

theorem alc_append_colon (xs ys : List Char) :
    afterLastColon (xs ++ ':' :: ys) = afterLastColon ys := by
  unfold afterLastColon
  rw [List.foldl_append]
  simp

theorem alc_colonfree (ys : List Char) (h : ':' ∉ ys) : afterLastColon ys = ys := by
  unfold afterLastColon
  simpa using foldl_token_colonfree ys h []

theorem extractId_tagKey (a b c d e : String) (he : colonFree e) :
    extractIdFromKey (tagKey a b c d e) = e := by
  unfold extractIdFromKey
  rw [tagKey_data, alc_append_colon, alc_append_colon, alc_append_colon, alc_append_colon,
    alc_colonfree e.data he]

theorem hasPfx_iff (p k : String) : hasPfx p k = true ↔ p.data <+: k.data := by
  unfold hasPfx
  exact List.isPrefixOf_iff_prefix

theorem hasPfx_append (p s : String) : hasPfx p (p ++ s) = true := by
  rw [hasPfx_iff, String.data_append]
  exact List.prefix_append _ _

theorem substringTo_substringTo (s : String) (m n : Nat) :
    substringTo (substringTo s m) n = substringTo s (min n m) := by
  unfold substringTo
  simp [List.take_take]

theorem substringTo_of_le (s : String) (n : Nat) (h : s.length ≤ n) :
    substringTo s n = s := by
  unfold substringTo
  rw [List.take_of_length_le (by rw [String.length_data]; exact h)]

/-! ### Registry facts -/

theorem config_of_getTypeConfig {T : String} {cfg : TypeConfig}
    (h : getTypeConfig T = some cfg) :
    cfg = promptConfig ∨ cfg = configConfig ∨ cfg = userConfig ∨ cfg = taskConfig := by
  unfold getTypeConfig at h
  cases hf : TYPE_CONFIGS.find? (fun p => p.1 == T) with
  | none => rw [hf] at h; simp at h
  | some pr =>
    rw [hf] at h
    have h2 : pr.2 = cfg := by simpa using h
    have hm := List.mem_of_find?_eq_some hf
    subst h2
    simp only [TYPE_CONFIGS, List.mem_cons, List.not_mem_nil, or_false] at hm
    rcases hm with h | h | h | h <;> simp [h]

theorem maxValueLength_of_getTypeConfig {T : String} {cfg : TypeConfig}
    (h : getTypeConfig T = some cfg) :
    orDefault cfg.maxValueLength 1000 = 1000 ∨ orDefault cfg.maxValueLength 1000 = 500 := by
  rcases config_of_getTypeConfig h with h | h | h | h <;> subst h <;> simp [promptConfig,
    configConfig, userConfig, taskConfig, orDefault]

theorem goodConfig_of_getTypeConfig {T : String} {cfg : TypeConfig}
    (h : getTypeConfig T = some cfg) : goodConfig cfg := by
  rcases config_of_getTypeConfig h with h | h | h | h <;> subst h <;>
    (unfold goodConfig; decide)

/-! ### Claim C2 -/

/-- C2: the truncation applied to an indexed value is identical at write time
and at query-prefix-construction time — for every registered type
configuration, the equality-index key stored for (type, field, value, id),
with the CRUD-layer truncation applied to the value, equals the
equality-index prefix built for (type, field, value) followed by the id, so
a where-filter on the exact stored value always matches the written key. -/
theorem c2_truncation_alignment (T : String) (cfg : TypeConfig)
    (hcfg : getTypeConfig T = some cfg) (field value id : String) :
    equalityIndexKey T field (indexedValueStr cfg value) id =
      equalityIndexPrefixStr T field value ++ id := by
  have htr : substringTo (indexedValueStr cfg value) 500 = substringTo value 500 := by
    unfold indexedValueStr
    rcases maxValueLength_of_getTypeConfig hcfg with h | h <;>
      rw [h, substringTo_substringTo] <;> norm_num
  unfold equalityIndexKey equalityIndexPrefixStr
  rw [htr, tagPfx_append_id]

/-- Witness for C2 at the registered type `task`. -/
theorem c2_truncation_alignment_witness :
    equalityIndexKey "task" "status" (indexedValueStr taskConfig "pending") "abc" =
      equalityIndexPrefixStr "task" "status" "pending" ++ "abc" :=
  c2_truncation_alignment "task" taskConfig (by decide) "status" "pending" "abc"

/-! ### Helper lemmas: JS sets, batches, the store -/

theorem mem_jsSetDedupAux {x : String} :
    ∀ {l seen : List String}, x ∈ jsSetDedupAux seen l ↔ x ∈ l ∧ x ∉ seen := by
  intro l
  induction l with
  | nil => intro seen; simp [jsSetDedupAux]
  | cons a l ih =>
    intro seen
    by_cases ha : a ∈ seen
    · rw [jsSetDedupAux, if_pos ha, ih]
      simp only [List.mem_cons]
      constructor
      · rintro ⟨hl, hs⟩; exact ⟨Or.inr hl, hs⟩
      · rintro ⟨hla, hs⟩
        rcases hla with rfl | hl
        · exact absurd ha hs
        · exact ⟨hl, hs⟩
    · rw [jsSetDedupAux, if_neg ha]
      simp only [List.mem_cons, ih]
      constructor
      · rintro (rfl | ⟨hl, hs⟩)
        · exact ⟨Or.inl rfl, ha⟩
        · exact ⟨Or.inr hl, fun hmm => hs (Or.inr hmm)⟩
      · rintro ⟨rfl | hl, hs⟩
        · exact Or.inl rfl
        · by_cases hx : x = a
          · exact Or.inl hx
          · refine Or.inr ⟨hl, fun hmm => ?_⟩
            rcases hmm with h1 | h1
            · exact hx h1
            · exact hs h1

theorem mem_jsSetDedup {x : String} {l : List String} : x ∈ jsSetDedup l ↔ x ∈ l := by
  unfold jsSetDedup
  rw [mem_jsSetDedupAux]
  simp

theorem jsSetDedupAux_sublist :
    ∀ (l seen : List String), List.Sublist (jsSetDedupAux seen l) l := by
  intro l
  induction l with
  | nil => intro seen; simp [jsSetDedupAux]
  | cons a l ih =>
    intro seen
    by_cases ha : a ∈ seen
    · rw [jsSetDedupAux, if_pos ha]
      exact (ih seen).cons a
    · rw [jsSetDedupAux, if_neg ha]
      exact (ih (a :: seen)).cons₂ a

theorem jsSetDedup_sublist (l : List String) : List.Sublist (jsSetDedup l) l :=
  jsSetDedupAux_sublist l []

theorem natDecAux_congr : ∀ (f1 n : Nat), n ≤ f1 → ∀ (f2 : Nat), n ≤ f2 →
    natDecAux f1 n = natDecAux f2 n := by
  intro f1
  induction f1 with
  | zero =>
    intro n hn f2 _
    have hn0 : n = 0 := by omega
    subst hn0
    cases f2 with
    | zero => rfl
    | succ f2' => rw [natDecAux, natDecAux, if_pos (by omega)]
  | succ f1' ih =>
    intro n hn f2 hf2
    cases f2 with
    | zero =>
      have hn0 : n = 0 := by omega
      subst hn0
      rw [natDecAux, natDecAux, if_pos (by omega)]
    | succ f2' =>
      rw [natDecAux, natDecAux]
      by_cases h : n < 10
      · rw [if_pos h, if_pos h]
      · rw [if_neg h, if_neg h]
        have hdiv : n / 10 < n := Nat.div_lt_self (by omega) (by omega)
        rw [ih (n / 10) (by omega) f2' (by omega)]

theorem natDecDigits_eq (n : Nat) : natDecDigits n =
    if n < 10 then [digitChar n]
    else natDecDigits (n / 10) ++ [digitChar (n % 10)] := by
  unfold natDecDigits
  cases n with
  | zero => rw [natDecAux, if_pos (by omega)]
  | succ m =>
    rw [natDecAux]
    by_cases h : m + 1 < 10
    · rw [if_pos h, if_pos h]
    · rw [if_neg h, if_neg h]
      have hdiv : (m + 1) / 10 < m + 1 := Nat.div_lt_self (by omega) (by omega)
      rw [natDecAux_congr m ((m + 1) / 10) (by omega) ((m + 1) / 10) (by omega)]

theorem mem_putIndexKey {st : KVState} {a k : String} :
    k ∈ (putIndexKey st a).indexes ↔ k = a ∨ k ∈ st.indexes := by
  unfold putIndexKey
  by_cases h : a ∈ st.indexes
  · simp only [h, if_pos]
    constructor
    · exact fun hk => Or.inr hk
    · rintro (rfl | hk) <;> [exact h; exact hk]
  · simp [h]

theorem mem_deleteIndexKey {st : KVState} {a k : String} :
    k ∈ (deleteIndexKey st a).indexes ↔ k ∈ st.indexes ∧ k ≠ a := by
  unfold deleteIndexKey
  simp [List.mem_filter]

theorem mem_foldl_putIndexKey (ks : List String) :
    ∀ (st : KVState) (k : String),
      k ∈ (ks.foldl putIndexKey st).indexes ↔ k ∈ ks ∨ k ∈ st.indexes := by
  induction ks with
  | nil => intro st k; simp
  | cons a ks ih =>
    intro st k
    rw [List.foldl_cons, ih]
    rw [mem_putIndexKey]
    simp [or_comm, or_assoc]
    tauto

theorem mem_foldl_deleteIndexKey (ks : List String) :
    ∀ (st : KVState) (k : String),
      k ∈ (ks.foldl deleteIndexKey st).indexes ↔ k ∈ st.indexes ∧ k ∉ ks := by
  induction ks with
  | nil => intro st k; simp
  | cons a ks ih =>
    intro st k
    rw [List.foldl_cons, ih]
    rw [mem_deleteIndexKey]
    simp only [List.mem_cons]
    tauto

theorem objects_putIndexKey (st : KVState) (a : String) :
    (putIndexKey st a).objects = st.objects := rfl

theorem objects_deleteIndexKey (st : KVState) (a : String) :
    (deleteIndexKey st a).objects = st.objects := rfl

theorem objects_foldl_putIndexKey (ks : List String) :
    ∀ (st : KVState), (ks.foldl putIndexKey st).objects = st.objects := by
  induction ks with
  | nil => intro st; rfl
  | cons a ks ih => intro st; rw [List.foldl_cons, ih, objects_putIndexKey]

theorem objects_foldl_deleteIndexKey (ks : List String) :
    ∀ (st : KVState), (ks.foldl deleteIndexKey st).objects = st.objects := by
  induction ks with
  | nil => intro st; rfl
  | cons a ks ih => intro st; rw [List.foldl_cons, ih, objects_deleteIndexKey]

theorem executeBatch_objects (st : KVState) (b : List IndexOperation) :
    (executeBatch st b).objects = st.objects := by
  unfold executeBatch
  rw [objects_foldl_deleteIndexKey, objects_foldl_putIndexKey]

theorem mem_executeBatch {st : KVState} {b : List IndexOperation} {k : String} :
    k ∈ (executeBatch st b).indexes ↔
      (k ∈ putsOf b ∨ k ∈ st.indexes) ∧ k ∉ deletesOf b := by
  unfold executeBatch
  rw [mem_foldl_deleteIndexKey, mem_foldl_putIndexKey]

theorem mem_putsOf {k : String} {b : List IndexOperation} :
    k ∈ putsOf b ↔ ∃ op ∈ b, op.key = k ∧ op.value.isSome := by
  unfold putsOf
  rw [List.mem_filterMap]
  constructor
  · rintro ⟨op, hop, hf⟩
    by_cases h : op.value.isSome
    · simp only [h, if_pos, Option.some.injEq] at hf
      exact ⟨op, hop, hf, h⟩
    · simp [h] at hf
  · rintro ⟨op, hop, rfl, h⟩
    exact ⟨op, hop, by simp [h]⟩

theorem mem_deletesOf {k : String} {b : List IndexOperation} :
    k ∈ deletesOf b ↔ ∃ op ∈ b, op.key = k ∧ op.value = none := by
  unfold deletesOf
  rw [List.mem_filterMap]
  constructor
  · rintro ⟨op, hop, hf⟩
    by_cases h : op.value.isSome
    · simp [h] at hf
    · have hnone : op.value = none := Option.not_isSome_iff_eq_none.mp h
      simp only [hnone, Option.isSome_none, Bool.false_eq_true, if_neg,
        Option.some.injEq, not_false_eq_true] at hf
      exact ⟨op, hop, hf, hnone⟩
  · rintro ⟨op, hop, rfl, h⟩
    exact ⟨op, hop, by simp [h]⟩

theorem mem_tokenizeFields {r : BaseRecord} {cfg : TypeConfig} {F : String}
    {toks : List String} :
    (F, toks) ∈ tokenizeFields r cfg.searchFields cfg.stopwords ↔
      F ∈ cfg.searchFields ∧ toks = tokensOfField r cfg F ∧ toks ≠ [] := by
  unfold tokenizeFields tokensOfField
  rw [List.mem_filterMap]
  constructor
  · rintro ⟨f, hf, hsome⟩
    cases hg : getField r f with
    | none => rw [hg] at hsome; simp at hsome
    | some v =>
      rw [hg] at hsome
      by_cases he : (tokenize v (cfg.stopwords.getD DEFAULT_STOPWORDS)).isEmpty
      · simp [he] at hsome
      · simp only [he, Bool.false_eq_true, if_neg, Option.some.injEq, Prod.mk.injEq,
          not_false_eq_true] at hsome
        obtain ⟨rfl, rfl⟩ := hsome
        rw [hg]
        exact ⟨hf, rfl, by simpa [List.isEmpty_iff] using he⟩
  · rintro ⟨hF, htoks, hne⟩
    refine ⟨F, hF, ?_⟩
    cases hg : getField r F with
    | none => rw [hg] at htoks; exact absurd htoks hne
    | some v =>
      rw [hg] at htoks
      subst htoks
      simp [List.isEmpty_iff, hne]

/-! ### Helper lemmas: Except inversion -/

theorem except_bind_ok {α β : Type} {x : Except String α} {f : α → Except String β}
    {b : β} (h : (x >>= f) = .ok b) : ∃ a, x = .ok a ∧ f a = .ok b := by
  cases x with
  | error e => simp [Bind.bind, Except.bind] at h
  | ok a => exact ⟨a, rfl, by simpa [Bind.bind, Except.bind] using h⟩

theorem except_bind_of_ok {α β : Type} {x : Except String α} {f : α → Except String β}
    {a : α} (h : x = .ok a) : (x >>= f) = f a := by
  rw [h]; rfl

/-! ### Claim C10 -/

/-- C10: deleting an absent record succeeds without error and leaves the
store unchanged, so deleting the same id twice in a row succeeds both times
with the second call a no-op. -/
theorem c10_delete_absent_noop (st : KVState) (T id : String) (cfg : TypeConfig)
    (hcfg : getTypeConfig T = some cfg)
    (hv : validateTypeAndId T id = .ok ())
    (habs : getObject st (objectKey T id) = none) :
    deleteRecord st T id = .ok st ∧
      (deleteRecord st T id).bind (fun st' => deleteRecord st' T id) = .ok st := by
  have h1 : deleteRecord st T id = .ok st := by
    unfold deleteRecord getRecord getTypeConfigE
    rw [hcfg]
    simp [Bind.bind, Except.bind, hv, habs]
  exact ⟨h1, by rw [h1]; exact h1⟩

/-- Witness for C10: deleting a valid, absent id from the empty store. -/
theorem c10_delete_absent_noop_witness :
    deleteRecord emptyStore "task" "abc" = .ok emptyStore ∧
      (deleteRecord emptyStore "task" "abc").bind
        (fun st' => deleteRecord st' "task" "abc") = .ok emptyStore :=
  c10_delete_absent_noop emptyStore "task" "abc" taskConfig rfl rfl rfl

/-! ### Claim C8 -/

/-- C8: a successful `createRecord` followed by `getRecord` on the returned
id yields exactly the created record: the open field map is the input data
(its reserved keys overridden by the envelope), the id is the generated one,
and `createdAt` equals `updatedAt`. -/
theorem c8_create_then_get (st : KVState) (T : String) (data : List (String × String))
    (id now : String) (r : BaseRecord) (st' : KVState)
    (h : createRecord st T data id now = .ok (r, st')) :
    getRecord st' T id = .ok (some r) ∧ r.id = id ∧ r.type = T ∧
      r.createdAt = r.updatedAt ∧ r.createdAt = now ∧ r.fields = mkOpenFields data := by
  unfold createRecord at h
  obtain ⟨cfg, hc, h⟩ := except_bind_ok h
  obtain ⟨u, hv, h⟩ := except_bind_ok h
  obtain ⟨rec?, hg, h⟩ := except_bind_ok h
  by_cases hex : rec?.isSome
  · rw [if_pos hex] at h; exact absurd h (by simp)
  · rw [if_neg hex] at h
    by_cases hsz : sizeExceeded cfg (recordSize ⟨id, T, now, now, mkOpenFields data⟩)
    · rw [if_pos hsz] at h; exact absurd h (by simp)
    · rw [if_neg hsz] at h
      have hr : r = ⟨id, T, now, now, mkOpenFields data⟩ ∧
          st' = executeBatch (putObject st (objectKey T id)
            ⟨id, T, now, now, mkOpenFields data⟩)
            (createIndexesOps ⟨id, T, now, now, mkOpenFields data⟩ cfg) := by
        have := h
        simp only [Except.ok.injEq, Prod.mk.injEq] at this
        exact ⟨this.1.symm, this.2.symm⟩
      obtain ⟨hre, hst⟩ := hr
      have hu : u = () := rfl
      refine ⟨?_, by rw [hre], by rw [hre], by rw [hre], by rw [hre], by rw [hre]⟩
      unfold getRecord
      rw [except_bind_of_ok hv]
      have hobj : getObject st' (objectKey T id) = some r := by
        rw [hst]
        unfold getObject
        rw [executeBatch_objects]
        unfold putObject
        simp [List.find?_cons, hre]
      rw [hobj]

/-- Witness for C8: creating a `task` record in the empty store and reading
it back. -/
theorem c8_create_then_get_witness :
    getRecord c8Out.2 "task" "abc" = .ok (some c8Out.1) ∧ c8Out.1.id = "abc" ∧
      c8Out.1.type = "task" ∧ c8Out.1.createdAt = c8Out.1.updatedAt ∧
      c8Out.1.createdAt = wNow ∧ c8Out.1.fields = mkOpenFields [("title", "Fix")] :=
  c8_create_then_get emptyStore "task" [("title", "Fix")] "abc" wNow c8Out.1 c8Out.2 rfl

/-! ### Claims C6 and C7 -/

theorem executeQueryCandidateIds_eq (store : List String) (T : String)
    (opts : QueryOptions) (cfg : TypeConfig)
    (hcfg : getTypeConfig T = some cfg) (hsp : simpleListPath opts = false) :
    executeQueryCandidateIds store T opts =
      some (
        let andFilters := opts.whereF.getD [] ++ opts.andF.getD []
        let ids :=
          if qTruthy opts.q then
            executeSearch store T (opts.q.getD "") opts.searchFields cfg
          else if !andFilters.isEmpty then executeAndFilters store T andFilters
          else listAllIds store T (min (orDefault opts.limit 50) 200)
        match opts.orF with
        | some orFilters =>
          if orFilters.isEmpty then ids
          else listUnion ids (executeOrFilters store T orFilters)
        | none => ids) := by
  unfold executeQueryCandidateIds
  rw [hcfg]
  simp [hsp]

/-- C6: with AND filters and OR filters present and no search text, the
candidate id set of `executeQuery` is the literal set union of the
independently computed AND-result set and OR-result set. -/
theorem c6_candidate_is_union (store : List String) (T : String)
    (opts : QueryOptions) (cfg : TypeConfig) (orFilters : List QueryFilter)
    (x : String)
    (hcfg : getTypeConfig T = some cfg)
    (hq : opts.q = none)
    (hand : opts.whereF.getD [] ++ opts.andF.getD [] ≠ [])
    (hor : opts.orF = some orFilters) (horne : orFilters ≠ []) :
    executeQueryCandidateIds store T opts =
      some (listUnion
        (executeAndFilters store T (opts.whereF.getD [] ++ opts.andF.getD []))
        (executeOrFilters store T orFilters)) ∧
    (x ∈ listUnion
        (executeAndFilters store T (opts.whereF.getD [] ++ opts.andF.getD []))
        (executeOrFilters store T orFilters) ↔
      x ∈ executeAndFilters store T (opts.whereF.getD [] ++ opts.andF.getD []) ∨
        x ∈ executeOrFilters store T orFilters) := by
  constructor
  · have hsp : simpleListPath opts = false := by
      unfold simpleListPath
      rcases hwa : opts.whereF with _ | w
      · rcases hab : opts.andF with _ | a
        · exact absurd (by rw [hwa, hab]; rfl) hand
        · simp [hab]
      · simp [hwa]
    have hae : (opts.whereF.getD [] ++ opts.andF.getD []).isEmpty = false := by
      cases h : (opts.whereF.getD [] ++ opts.andF.getD []).isEmpty with
      | false => rfl
      | true => exact absurd (List.isEmpty_iff.mp h) hand
    have hoe : orFilters.isEmpty = false := by
      cases h : orFilters.isEmpty with
      | false => rfl
      | true => exact absurd (List.isEmpty_iff.mp h) horne
    rw [executeQueryCandidateIds_eq store T opts cfg hcfg hsp]
    simp only [hq, qTruthy, Bool.false_eq_true, if_neg, not_false_eq_true, hae,
      Bool.not_false, if_pos, hor, hoe]
  · unfold listUnion
    rw [mem_jsSetDedup, List.mem_append]

/-- Witness for C6 on an empty store with one AND and one OR filter. -/
theorem c6_candidate_is_union_witness :
    executeQueryCandidateIds [] "task"
        { whereF := some [⟨"status", "p"⟩], orF := some [⟨"priority", "h"⟩] } =
      some (listUnion (executeAndFilters [] "task" [⟨"status", "p"⟩])
        (executeOrFilters [] "task" [⟨"priority", "h"⟩])) ∧
    ("a" ∈ listUnion (executeAndFilters [] "task" [⟨"status", "p"⟩])
        (executeOrFilters [] "task" [⟨"priority", "h"⟩]) ↔
      "a" ∈ executeAndFilters [] "task" [⟨"status", "p"⟩] ∨
        "a" ∈ executeOrFilters [] "task" [⟨"priority", "h"⟩]) :=
  c6_candidate_is_union [] "task"
    { whereF := some [⟨"status", "p"⟩], orF := some [⟨"priority", "h"⟩] }
    taskConfig [⟨"priority", "h"⟩] "a" rfl rfl (by simp) rfl (by simp)

/-- C7: when the search text is a non-empty string, the candidate id set of
`executeQuery` ignores the `where` and `and` equality filters entirely: it
is built from search resolution alone (with any OR filters unioned in), and
it equals the candidate set of the same query with `where`/`and` removed. -/
theorem c7_search_wins (store : List String) (T : String) (opts : QueryOptions)
    (q : String) (cfg : TypeConfig)
    (hcfg : getTypeConfig T = some cfg)
    (hq : opts.q = some q) (hqne : q ≠ "") :
    executeQueryCandidateIds store T opts =
      some (match opts.orF with
        | some orFilters =>
          if orFilters.isEmpty then executeSearch store T q opts.searchFields cfg
          else listUnion (executeSearch store T q opts.searchFields cfg)
            (executeOrFilters store T orFilters)
        | none => executeSearch store T q opts.searchFields cfg) ∧
    executeQueryCandidateIds store T opts =
      executeQueryCandidateIds store T { opts with whereF := none, andF := none } := by
  have hqt : qTruthy opts.q = true := by
    rw [hq]; simpa [qTruthy] using hqne
  have hsp : simpleListPath opts = false := by
    unfold simpleListPath
    rw [hqt]
    simp
  have h1 : executeQueryCandidateIds store T opts =
      some (match opts.orF with
        | some orFilters =>
          if orFilters.isEmpty then executeSearch store T q opts.searchFields cfg
          else listUnion (executeSearch store T q opts.searchFields cfg)
            (executeOrFilters store T orFilters)
        | none => executeSearch store T q opts.searchFields cfg) := by
    rw [executeQueryCandidateIds_eq store T opts cfg hcfg hsp]
    have hqt2 : qTruthy (some q) = true := by simpa [qTruthy] using hqne
    simp [hq, hqt2]
  refine ⟨h1, ?_⟩
  rw [h1]
  have hqt' : qTruthy ({ opts with whereF := none, andF := none } : QueryOptions).q = true := hqt
  have hsp' : simpleListPath { opts with whereF := none, andF := none } = false := by
    unfold simpleListPath
    rw [hqt']
    simp
  rw [executeQueryCandidateIds_eq store T { opts with whereF := none, andF := none } cfg hcfg hsp']
  have hqt2 : qTruthy (some q) = true := by simpa [qTruthy] using hqne
  simp [hq, hqt2]

/-- Witness for C7 on an empty store: a search query carrying a `where`
filter resolves identically with and without that filter. -/
theorem c7_search_wins_witness :
    executeQueryCandidateIds [] "task"
        { whereF := some [⟨"status", "p"⟩], q := some "bug" } =
      some (executeSearch [] "task" "bug" none taskConfig) ∧
    executeQueryCandidateIds [] "task"
        { whereF := some [⟨"status", "p"⟩], q := some "bug" } =
      executeQueryCandidateIds [] "task" { q := some "bug" } := by
  have h := c7_search_wins [] "task" { whereF := some [⟨"status", "p"⟩], q := some "bug" }
    "bug" taskConfig rfl rfl (by decide)
  exact h

/-! ### Claim C3 -/

theorem mem_intersectSets {x : String} {a b : List String} :
    x ∈ intersectSets a b ↔ x ∈ a ∧ x ∈ b := by
  simp [intersectSets, List.mem_filter, List.elem_iff]

theorem mem_andIntersectLoop (x : String) :
    ∀ (rest : List (List String)) (acc : List String),
      x ∈ andIntersectLoop acc rest ↔ x ∈ acc ∧ ∀ s ∈ rest, x ∈ s := by
  intro rest
  induction rest with
  | nil => intro acc; simp [andIntersectLoop]
  | cons s rest ih =>
    intro acc
    by_cases he : (intersectSets acc s).isEmpty
    · have hnone : ∀ y, y ∉ intersectSets acc s := by
        intro y hy
        rw [List.isEmpty_iff.mp he] at hy
        simp at hy
      simp only [andIntersectLoop, he, if_pos]
      constructor
      · intro hx; exact absurd hx (hnone x)
      · rintro ⟨hxa, hall⟩
        exact absurd (mem_intersectSets.mpr ⟨hxa, hall s (List.mem_cons_self s rest)⟩) (hnone x)
    · simp only [andIntersectLoop, he, Bool.false_eq_true, if_neg, not_false_eq_true]
      rw [ih, mem_intersectSets]
      simp only [List.forall_mem_cons]
      tauto

theorem natDecDigits_ne_colon (n : Nat) : ':' ∉ natDecDigits n := by
  have hd : ∀ d : Nat, digitChar d ≠ ':' := by
    intro d
    unfold digitChar
    split <;> decide
  induction n using Nat.strong_induction_on with
  | _ n ih =>
    rw [natDecDigits_eq]
    by_cases h : n < 10
    · rw [if_pos h]
      simp only [List.mem_singleton]
      exact fun hc => hd n hc.symm
    · rw [if_neg h]
      intro hmem
      rcases List.mem_append.mp hmem with h1 | h1
      · exact ih (n / 10) (Nat.div_lt_self (by omega) (by omega)) h1
      · simp only [List.mem_singleton] at h1
        exact hd _ h1.symm

theorem extractId_after_colon (a s : String) :
    extractIdFromKey (a ++ ":" ++ s) = extractIdFromKey s := by
  unfold extractIdFromKey
  have hdata : (a ++ ":" ++ s).data = a.data ++ ':' :: s.data := by
    simp [String.data_append]
  rw [hdata, alc_append_colon]

/-- C3 counterexample: `getIdsForEqualityFilter` pages only up to an internal
cap of 1000 keys, so with 1001 equality-index keys under the filter prefix,
an id whose key carries the prefix (here `zz`, listed last) is absent from
the AND result — the candidate set is not complete and the claimed equality
with the full intersection fails. -/
theorem c3_and_complete_counterexample :
    (c3Pfx ++ "zz") ∈ c3Store ∧
      hasPfx (equalityIndexPrefixStr "task" "status" "p") (c3Pfx ++ "zz") = true ∧
      extractIdFromKey (c3Pfx ++ "zz") = "zz" ∧
      keyWitness c3Store (equalityIndexPrefixStr "task" "status" "p") "zz" ∧
      "zz" ∉ executeAndFilters c3Store "task" [⟨"status", "p"⟩] := by
  have hpfx : (equalityIndexPrefixStr "task" "status" "p") = c3Pfx := rfl
  have hc3 : c3Pfx = "idx:task:status:p" ++ ":" := by decide
  have hmemz : (c3Pfx ++ "zz") ∈ c3Store := by
    unfold c3Store
    exact List.mem_append_right _ (List.mem_singleton.mpr rfl)
  have hhz : hasPfx c3Pfx (c3Pfx ++ "zz") = true := hasPfx_append _ _
  have hez : extractIdFromKey (c3Pfx ++ "zz") = "zz" := by
    rw [hc3, extractId_after_colon]
    decide
  refine ⟨hmemz, hpfx ▸ hhz, hez, ⟨c3Pfx ++ "zz", hmemz, hpfx ▸ hhz, hez⟩, ?_⟩
  have hfilter : c3Store.filter (hasPfx c3Pfx) = c3Store := by
    rw [List.filter_eq_self]
    intro k hk
    unfold c3Store at hk
    rcases List.mem_append.mp hk with h1 | h1
    · obtain ⟨i, _, rfl⟩ := List.mem_map.mp h1
      have : c3Pfx ++ "a" ++ natDecStr i = c3Pfx ++ ("a" ++ natDecStr i) := by
        rw [String.append_assoc]
      rw [this]
      exact hasPfx_append _ _
    · rw [List.mem_singleton.mp h1]
      exact hasPfx_append _ _
  have hlen : ((List.range 1000).map (fun i => c3Pfx ++ "a" ++ natDecStr i)).length = 1000 := by
    simp
  have htake :
      listAllKeys c3Store c3Pfx =
        (List.range 1000).map (fun i => c3Pfx ++ "a" ++ natDecStr i) := by
    unfold listAllKeys
    rw [hfilter]
    unfold c3Store
    exact List.take_left' hlen
  intro hmem
  unfold executeAndFilters at hmem
  simp only [List.isEmpty_cons, Bool.false_eq_true, if_neg, not_false_eq_true,
    List.map_cons, List.map_nil, List.insertionSort, List.orderedInsert] at hmem
  rw [andIntersectLoop] at hmem
  unfold getIdsForEqualityFilter at hmem
  rw [hpfx, htake, mem_jsSetDedup] at hmem
  obtain ⟨k, hk, hke⟩ := List.mem_map.mp hmem
  obtain ⟨i, _, rfl⟩ := List.mem_map.mp hk
  have hsplit : c3Pfx ++ "a" ++ natDecStr i =
      "idx:task:status:p" ++ ":" ++ ("a" ++ natDecStr i) := by
    rw [hc3, String.append_assoc]
  rw [hsplit, extractId_after_colon] at hke
  have hfree : colonFree ("a" ++ natDecStr i) := by
    intro hmm
    rw [String.data_append] at hmm
    rcases List.mem_append.mp hmm with h1 | h1
    · simp [show ("a" : String).data = ['a'] from rfl] at h1
    · exact natDecDigits_ne_colon i h1
  unfold extractIdFromKey at hke
  rw [alc_colonfree _ hfree] at hke
  have hdz := congrArg String.data hke
  rw [String.data_append] at hdz
  simp [show ("a" : String).data = ['a'] from rfl,
    show ("zz" : String).data = ['z', 'z'] from rfl] at hdz

/-- C3 amended: each per-filter candidate set consists of the ids of the
first (at most) 1000 keys under the filter's equality-index prefix — the
complete set whenever at most 1000 keys match, since paging continues past
the query limit up to that internal cap — and the AND result equals the
intersection of these per-filter sets, computed smallest-first with an
empty short-circuit. -/
theorem c3_and_intersection_amended (store : List String) (T : String)
    (filters : List QueryFilter) (x : String) (f : QueryFilter)
    (hne : filters ≠ []) (_hf : f ∈ filters)
    (hcap : (store.filter (hasPfx (equalityIndexPrefixStr T f.field f.value))).length ≤ 1000) :
    (x ∈ executeAndFilters store T filters ↔ andSemantics store T filters x) ∧
    (x ∈ getIdsForEqualityFilter store T f.field f.value ↔
      keyWitness store (equalityIndexPrefixStr T f.field f.value) x) := by
  constructor
  · have hie : filters.isEmpty = false := by
      cases h : filters.isEmpty with
      | false => rfl
      | true => exact absurd (List.isEmpty_iff.mp h) hne
    have hperm := List.perm_insertionSort
      (fun a b : List String => a.length ≤ b.length)
      (filters.map (fun g => getIdsForEqualityFilter store T g.field g.value))
    unfold executeAndFilters
    rw [hie]
    cases hs : List.insertionSort (fun a b : List String => a.length ≤ b.length)
      (filters.map (fun g => getIdsForEqualityFilter store T g.field g.value)) with
    | nil =>
      rw [hs] at hperm
      have hmap : filters.map (fun g => getIdsForEqualityFilter store T g.field g.value) = [] :=
        hperm.symm.eq_nil
      simp only [List.map_eq_nil_iff] at hmap
      exact absurd hmap hne
    | cons s rest =>
      simp only [Bool.false_eq_true, if_neg, not_false_eq_true, hs]
      rw [mem_andIntersectLoop]
      have hmemiff : ∀ t, t ∈ s :: rest ↔
          t ∈ filters.map (fun g => getIdsForEqualityFilter store T g.field g.value) := by
        intro t
        rw [← hs]
        exact (List.Perm.mem_iff hperm)
      unfold andSemantics
      constructor
      · rintro ⟨hxs, hall⟩ g hg
        have : getIdsForEqualityFilter store T g.field g.value ∈ s :: rest :=
          (hmemiff _).mpr (List.mem_map.mpr ⟨g, hg, rfl⟩)
        rcases List.mem_cons.mp this with h1 | h1
        · rw [h1]; exact hxs
        · exact hall _ h1
      · intro hall
        have hmem : ∀ t ∈ s :: rest, x ∈ t := by
          intro t ht
          obtain ⟨g, hg, rfl⟩ := List.mem_map.mp ((hmemiff t).mp ht)
          exact hall g hg
        exact ⟨hmem s (List.mem_cons_self s rest),
          fun t ht => hmem t (List.mem_cons_of_mem s ht)⟩
  · unfold getIdsForEqualityFilter listAllKeys keyWitness
    rw [List.take_of_length_le hcap, mem_jsSetDedup]
    constructor
    · intro hm
      obtain ⟨k, hk, hke⟩ := List.mem_map.mp hm
      obtain ⟨hks, hkp⟩ := List.mem_filter.mp hk
      exact ⟨k, hks, hkp, hke⟩
    · rintro ⟨k, hks, hkp, hke⟩
      exact List.mem_map.mpr ⟨k, List.mem_filter.mpr ⟨hks, hkp⟩, hke⟩

/-- Witness for the amended C3 on the empty store with one filter. -/
theorem c3_and_intersection_amended_witness :
    ("a" ∈ executeAndFilters [] "task" [⟨"status", "p"⟩] ↔
      andSemantics [] "task" [⟨"status", "p"⟩] "a") ∧
    ("a" ∈ getIdsForEqualityFilter [] "task" "status" "p" ↔
      keyWitness [] (equalityIndexPrefixStr "task" "status" "p") "a") :=
  c3_and_intersection_amended [] "task" [⟨"status", "p"⟩] "a" ⟨"status", "p"⟩
    (by decide) (by decide) (by decide)

/-! ### Helper lemmas: fixed-width decimal strings and lexicographic order -/

theorem string_lt_iff_lex (s t : String) :
    s < t ↔ List.Lex (· < ·) s.data t.data :=
  String.lt_iff_toList_lt

theorem digitChar_toNat {d : Nat} (h : d < 10) : (digitChar d).toNat = 48 + d := by
  interval_cases d <;> rfl

theorem digitChar_isDigit {d : Nat} (h : d < 10) : isDigitCh (digitChar d) = true := by
  interval_cases d <;> rfl

theorem isDigitCh_bounds {c : Char} (h : isDigitCh c = true) :
    48 ≤ c.toNat ∧ c.toNat ≤ 57 := by
  unfold isDigitCh at h
  simp only [Bool.and_eq_true, decide_eq_true_eq] at h
  exact h

theorem natDecDigits_digits (n : Nat) : ∀ c ∈ natDecDigits n, isDigitCh c = true := by
  induction n using Nat.strong_induction_on with
  | _ n ih =>
    rw [natDecDigits_eq]
    by_cases h : n < 10
    · rw [if_pos h]
      intro c hc
      rw [List.mem_singleton.mp hc]
      exact digitChar_isDigit h
    · rw [if_neg h]
      intro c hc
      rcases List.mem_append.mp hc with h1 | h1
      · exact ih (n / 10) (Nat.div_lt_self (by omega) (by omega)) c h1
      · rw [List.mem_singleton.mp h1]
        exact digitChar_isDigit (Nat.mod_lt n (by omega))

theorem valOf_append_digit (xs : List Char) (c : Char) :
    valOfDigits (xs ++ [c]) = 10 * valOfDigits xs + (c.toNat - 48) := by
  induction xs with
  | nil => simp [valOfDigits]
  | cons d xs ih =>
    simp only [List.cons_append, valOfDigits, ih, List.append_eq,
      List.length_append, List.length_singleton, pow_succ]
    ring

theorem valOf_natDecDigits (n : Nat) : valOfDigits (natDecDigits n) = n := by
  induction n using Nat.strong_induction_on with
  | _ n ih =>
    rw [natDecDigits_eq]
    by_cases h : n < 10
    · rw [if_pos h]
      simp [valOfDigits, digitChar_toNat h]
    · rw [if_neg h]
      rw [valOf_append_digit, ih (n / 10) (Nat.div_lt_self (by omega) (by omega)),
        digitChar_toNat (Nat.mod_lt n (by omega))]
      omega

theorem length_natDecDigits_le : ∀ (k n : Nat), n < 10 ^ k → 1 ≤ k →
    (natDecDigits n).length ≤ k := by
  intro k
  induction k with
  | zero => intro n _ hk; omega
  | succ k ih =>
    intro n hn _
    by_cases h : n < 10
    · rw [natDecDigits_eq, if_pos h]
      simp only [List.length_singleton]
      omega
    · rw [natDecDigits_eq, if_neg h]
      have hk1 : 1 ≤ k := by
        by_contra hk0
        have hz : k = 0 := by omega
        subst hz
        have h10 : (10 : Nat) ^ (0 + 1) = 10 := by norm_num
        rw [h10] at hn
        exact h hn
      have hdiv : n / 10 < 10 ^ k := by
        rw [Nat.div_lt_iff_lt_mul (by norm_num : 0 < 10)]
        calc n < 10 ^ (k + 1) := hn
        _ = 10 ^ k * 10 := by ring
      have := ih (n / 10) hdiv hk1
      simp only [List.length_append, List.length_singleton]
      omega

theorem valOf_lt_pow (ds : List Char) (h : ∀ c ∈ ds, isDigitCh c = true) :
    valOfDigits ds < 10 ^ ds.length := by
  induction ds with
  | nil => simp [valOfDigits]
  | cons c cs ih =>
    have hc := isDigitCh_bounds (h c (List.mem_cons_self c cs))
    have ihs := ih (fun x hx => h x (List.mem_cons_of_mem c hx))
    simp only [valOfDigits, List.length_cons]
    have h9 : c.toNat - 48 ≤ 9 := by omega
    calc (c.toNat - 48) * 10 ^ cs.length + valOfDigits cs
        < (c.toNat - 48) * 10 ^ cs.length + 10 ^ cs.length := by omega
      _ = (c.toNat - 48 + 1) * 10 ^ cs.length := by ring
      _ ≤ 10 * 10 ^ cs.length := Nat.mul_le_mul_right _ (by omega)
      _ = 10 ^ (cs.length + 1) := by ring

theorem lex_digits_iff : ∀ (ds es : List Char), ds.length = es.length →
    (∀ c ∈ ds, isDigitCh c = true) → (∀ c ∈ es, isDigitCh c = true) →
    (List.Lex (· < ·) ds es ↔ valOfDigits ds < valOfDigits es) := by
  intro ds
  induction ds with
  | nil =>
    intro es hlen _ _
    have : es = [] := List.length_eq_zero.mp hlen.symm
    subst this
    simp [valOfDigits]
  | cons c cs ih =>
    intro es hlen hds hes
    cases es with
    | nil => simp at hlen
    | cons e es' =>
      have hlen' : cs.length = es'.length := by simpa using hlen
      have hcd := isDigitCh_bounds (hds c (List.mem_cons_self c cs))
      have hed := isDigitCh_bounds (hes e (List.mem_cons_self e es'))
      have hcs := fun x hx => hds x (List.mem_cons_of_mem c hx)
      have hes' := fun x hx => hes x (List.mem_cons_of_mem e hx)
      have hvc := valOf_lt_pow cs hcs
      have hve := valOf_lt_pow es' hes'
      constructor
      · intro hlex
        cases hlex with
        | rel hr =>
          have hr' : c.toNat < e.toNat := hr
          simp only [valOfDigits, hlen']
          have h1 : (c.toNat - 48) * 10 ^ es'.length + valOfDigits cs <
              (c.toNat - 48 + 1) * 10 ^ es'.length := by
            rw [add_mul, one_mul]
            rw [hlen'] at hvc
            omega
          have h2 : (c.toNat - 48 + 1) * 10 ^ es'.length ≤
              (e.toNat - 48) * 10 ^ es'.length :=
            Nat.mul_le_mul_right _ (by omega)
          omega
        | cons htail =>
          simp only [valOfDigits, hlen']
          have := (ih es' hlen' hcs hes').mp htail
          omega
      · intro hval
        rcases Nat.lt_trichotomy c.toNat e.toNat with hlt | heq | hgt
        · exact List.Lex.rel hlt
        · have hce : c = e := Char.ext (UInt32.toNat.inj heq)
          subst hce
          apply List.Lex.cons
          apply (ih es' hlen' hcs hes').mpr
          simp only [valOfDigits, hlen'] at hval
          omega
        · exfalso
          simp only [valOfDigits, hlen'] at hval
          have h1 : (e.toNat - 48) * 10 ^ es'.length + valOfDigits es' <
              (e.toNat - 48 + 1) * 10 ^ es'.length := by
            rw [add_mul, one_mul]
            omega
          have h2 : (e.toNat - 48 + 1) * 10 ^ es'.length ≤
              (c.toNat - 48) * 10 ^ es'.length :=
            Nat.mul_le_mul_right _ (by omega)
          omega

theorem valOf_replicate_zero (k : Nat) (ds : List Char) :
    valOfDigits (List.replicate k '0' ++ ds) = valOfDigits ds := by
  induction k with
  | zero => simp
  | succ k ih =>
    rw [List.replicate_succ, List.cons_append]
    simp only [valOfDigits, ih]
    have : ('0' : Char).toNat - 48 = 0 := rfl
    rw [this]
    ring

theorem padStart20_data (s : String) :
    (padStart20 s).data = List.replicate (20 - s.length) '0' ++ s.data := rfl

theorem padStart20_length {s : String} (h : s.length ≤ 20) :
    (padStart20 s).length = 20 := by
  show (padStart20 s).data.length = 20
  rw [padStart20_data]
  simp only [List.length_append, List.length_replicate]
  have : s.data.length = s.length := String.length_data s
  omega

theorem padStart20_digits {s : String} (h : ∀ c ∈ s.data, isDigitCh c = true) :
    ∀ c ∈ (padStart20 s).data, isDigitCh c = true := by
  rw [padStart20_data]
  intro c hc
  rcases List.mem_append.mp hc with h1 | h1
  · rw [List.eq_of_mem_replicate h1]
    rfl
  · exact h c h1

theorem natDecStr_length (n : Nat) : (natDecStr n).length = (natDecDigits n).length := rfl

theorem padded_nat_lt {a b : Nat} (hab : a < b) (hb : b < 10 ^ 20) :
    padStart20 (natDecStr a) < padStart20 (natDecStr b) ∧
      (padStart20 (natDecStr a)).length = 20 ∧
      (padStart20 (natDecStr b)).length = 20 := by
  have hla : (natDecStr a).length ≤ 20 := by
    rw [natDecStr_length]
    exact length_natDecDigits_le 20 a (lt_trans hab hb) (by norm_num)
  have hlb : (natDecStr b).length ≤ 20 := by
    rw [natDecStr_length]
    exact length_natDecDigits_le 20 b hb (by norm_num)
  refine ⟨?_, padStart20_length hla, padStart20_length hlb⟩
  rw [string_lt_iff_lex]
  have hda : ∀ c ∈ (padStart20 (natDecStr a)).data, isDigitCh c = true :=
    padStart20_digits (by simpa [natDecStr] using natDecDigits_digits a)
  have hdb : ∀ c ∈ (padStart20 (natDecStr b)).data, isDigitCh c = true :=
    padStart20_digits (by simpa [natDecStr] using natDecDigits_digits b)
  have hlen : (padStart20 (natDecStr a)).data.length =
      (padStart20 (natDecStr b)).data.length := by
    rw [String.length_data, String.length_data, padStart20_length hla,
      padStart20_length hlb]
  rw [lex_digits_iff _ _ hlen hda hdb]
  rw [padStart20_data, padStart20_data, valOf_replicate_zero, valOf_replicate_zero]
  show valOfDigits (natDecDigits a) < valOfDigits (natDecDigits b)
  rw [valOf_natDecDigits, valOf_natDecDigits]
  exact hab

/-! ### Claim C5 -/

/-- C5: the reverse-timestamp encoding is order-reversing with fixed width.
For two parseable timestamps with millisecond instants `t1 < t2`, both
strictly before the pivot and within the valid JS `Date` range, the later
timestamp's padded reverse string is lexicographically smaller, and both
strings have exactly the fixed padded width of 20 digits — so an ascending
prefix scan of reverse-time-index keys yields descending chronological
order. -/
theorem c5_reverse_timestamp_order (s1 s2 : String) (t1 t2 : Int)
    (h1 : dateParseMs s1 = some t1) (h2 : dateParseMs s2 = some t2)
    (hlo : -8640000000000000 ≤ t1) (h12 : t1 < t2) (hhi : t2 < pivotMs) :
    getReverseTimestamp s2 < getReverseTimestamp s1 ∧
      (getReverseTimestamp s1).length = 20 ∧ (getReverseTimestamp s2).length = 20 := by
  have hpiv : pivotMs = 4102444799999 := by decide
  unfold getReverseTimestamp
  rw [h1, h2]
  unfold jsIntString
  simp only [if_neg (by omega : ¬ pivotMs - t1 < 0),
    if_neg (by omega : ¬ pivotMs - t2 < 0)]
  have ha : (pivotMs - t2).toNat < (pivotMs - t1).toNat := by omega
  have hb : (pivotMs - t1).toNat < 10 ^ 20 := by
    have hp : (10 : Nat) ^ 20 = 100000000000000000000 := by norm_num
    omega
  obtain ⟨hlt, hl1, hl2⟩ := padded_nat_lt ha hb
  exact ⟨hlt, hl2, hl1⟩

/-- Witness for C5 on two concrete consecutive days of 2025. -/
theorem c5_reverse_timestamp_order_witness :
    getReverseTimestamp "2025-01-02T00:00:00.000Z" <
        getReverseTimestamp "2025-01-01T00:00:00.000Z" ∧
      (getReverseTimestamp "2025-01-01T00:00:00.000Z").length = 20 ∧
      (getReverseTimestamp "2025-01-02T00:00:00.000Z").length = 20 :=
  c5_reverse_timestamp_order "2025-01-01T00:00:00.000Z" "2025-01-02T00:00:00.000Z"
    1735689600000 1735776000000 (by decide) (by decide) (by decide) (by decide)
    (by decide)

/-! ### Claim C4: order from index key order -/

theorem string_le_iff (s t : String) :
    s ≤ t ↔ (List.Lex (· < ·) s.data t.data ∨ s.data = t.data) := by
  rw [le_iff_lt_or_eq, string_lt_iff_lex]
  constructor
  · rintro (h | h)
    · exact Or.inl h
    · exact Or.inr (congrArg String.data h)
  · rintro (h | h)
    · exact Or.inl h
    · exact Or.inr (str_data_inj h)

theorem lex_append_left_cancel : ∀ (p s t : List Char),
    List.Lex (· < ·) (p ++ s) (p ++ t) → List.Lex (· < ·) s t := by
  intro p
  induction p with
  | nil => intro s t h; simpa using h
  | cons a p ih =>
    intro s t h
    simp only [List.cons_append] at h
    cases h with
    | rel hr => exact absurd hr (lt_irrefl a)
    | cons htail => exact ih s t htail

theorem lex_eqlen_prefix : ∀ (s t m n : List Char), s.length = t.length →
    List.Lex (· < ·) (s ++ m) (t ++ n) → List.Lex (· < ·) s t ∨ s = t := by
  intro s
  induction s with
  | nil =>
    intro t m n hlen _
    right
    exact (List.length_eq_zero.mp hlen.symm).symm
  | cons a s ih =>
    intro t m n hlen hlex
    cases t with
    | nil => simp at hlen
    | cons b t' =>
      simp only [List.cons_append] at hlex
      cases hlex with
      | rel hr => exact Or.inl (List.Lex.rel hr)
      | cons htail =>
        have hlen' : s.length = t'.length := by simpa using hlen
        rcases ih t' m n hlen' htail with h | h
        · exact Or.inl (List.Lex.cons h)
        · exact Or.inr (by rw [h])

theorem tagKey_data_split (a b c d e : String) :
    (tagKey a b c d e).data =
      (a.data ++ ':' :: (b.data ++ ':' :: (c.data ++ [':']))) ++
        (d.data ++ ':' :: e.data) := by
  rw [tagKey_data]
  simp [List.append_assoc]

theorem tagKey_lt_seg {tag T F s1 s2 i1 i2 : String}
    (hlen : s1.length = s2.length)
    (hlt : tagKey tag T F s1 i1 < tagKey tag T F s2 i2) :
    List.Lex (· < ·) s1.data s2.data ∨ s1.data = s2.data := by
  rw [string_lt_iff_lex, tagKey_data_split, tagKey_data_split] at hlt
  have hlex := lex_append_left_cancel _ _ _ hlt
  have hlen' : s1.data.length = s2.data.length := by
    rw [String.length_data, String.length_data]; exact hlen
  rcases lex_eqlen_prefix _ _ _ _ hlen' hlex with h | h
  · exact Or.inl h
  · exact Or.inr h

theorem padded_nat_le_unpack {a b : Nat} (ha : a < 10 ^ 20) (hb : b < 10 ^ 20)
    (h : List.Lex (· < ·) (padStart20 (natDecStr a)).data (padStart20 (natDecStr b)).data ∨
      (padStart20 (natDecStr a)).data = (padStart20 (natDecStr b)).data) :
    a ≤ b := by
  have hla : (natDecStr a).length ≤ 20 := by
    rw [natDecStr_length]
    exact length_natDecDigits_le 20 a ha (by norm_num)
  have hlb : (natDecStr b).length ≤ 20 := by
    rw [natDecStr_length]
    exact length_natDecDigits_le 20 b hb (by norm_num)
  have hva : valOfDigits (padStart20 (natDecStr a)).data = a := by
    rw [padStart20_data]
    show valOfDigits (List.replicate _ '0' ++ natDecDigits a) = a
    rw [valOf_replicate_zero, valOf_natDecDigits]
  have hvb : valOfDigits (padStart20 (natDecStr b)).data = b := by
    rw [padStart20_data]
    show valOfDigits (List.replicate _ '0' ++ natDecDigits b) = b
    rw [valOf_replicate_zero, valOf_natDecDigits]
  rcases h with h | h
  · have hlen : (padStart20 (natDecStr a)).data.length =
        (padStart20 (natDecStr b)).data.length := by
      rw [String.length_data, String.length_data, padStart20_length hla,
        padStart20_length hlb]
    have hda : ∀ c ∈ (padStart20 (natDecStr a)).data, isDigitCh c = true :=
      padStart20_digits (by simpa [natDecStr] using natDecDigits_digits a)
    have hdb : ∀ c ∈ (padStart20 (natDecStr b)).data, isDigitCh c = true :=
      padStart20_digits (by simpa [natDecStr] using natDecDigits_digits b)
    have := (lex_digits_iff _ _ hlen hda hdb).mp h
    omega
  · have := congrArg valOfDigits h
    omega

theorem getReverseTimestamp_of_parse {s : String} {ms : Int}
    (hp : dateParseMs s = some ms) (hlt : ms < pivotMs) :
    getReverseTimestamp s = padStart20 (natDecStr (pivotMs - ms).toNat) := by
  unfold getReverseTimestamp
  rw [hp]
  unfold jsIntString
  simp only [if_neg (by omega : ¬ pivotMs - ms < 0)]

/-- C4: for records of a type whose time field is populated, sorting
ascending returns ids in nondecreasing order of the field's (fixed-width)
timestamp, and sorting descending returns them in nonincreasing
chronological order — the order being exactly the time-index key scan order
filtered to the candidate set, not an in-memory comparator.  The store is
the lexicographically sorted key listing; the shape hypotheses say that the
keys under the two scan prefixes are exactly well-formed time-index keys of
records whose field value (respectively its parsed instant) is given by
`tsOf` (respectively `msOf`). -/
theorem c4_sort_by_time_index (store : List String) (T F : String)
    (cfg : TypeConfig) (ids : List String) (tsOf : String → String) (L : Nat)
    (isoOf : String → String) (msOf : String → Int) (outA outD : List String)
    (hsorted : List.Pairwise (· < ·) store)
    (hF : F ∈ cfg.timeFields)
    (hshapeA : ∀ k ∈ store, hasPfx (timeIndexPrefixStr T F) k = true →
      ∃ id, colonFree id ∧ (tsOf id).length = L ∧ k = timeIndexKey T F (tsOf id) id)
    (hshapeD : ∀ k ∈ store, hasPfx (reverseTimeIndexPrefixStr T F) k = true →
      ∃ id, colonFree id ∧ k = reverseTimeIndexKey T F (isoOf id) id ∧
        dateParseMs (isoOf id) = some (msOf id) ∧
        -8640000000000000 ≤ msOf id ∧ msOf id < pivotMs)
    (hA : applySorting store T ids ⟨F, .asc⟩ cfg = .ok outA)
    (hD : applySorting store T ids ⟨F, .desc⟩ cfg = .ok outD) :
    List.Pairwise (fun a b => tsOf a ≤ tsOf b) outA ∧
      List.Pairwise (fun a b => msOf b ≤ msOf a) outD := by
  have hnot : ¬ F ∉ cfg.timeFields := not_not_intro hF
  constructor
  · unfold applySorting at hA
    simp only [hnot, Bool.false_eq_true, if_neg, not_false_eq_true] at hA
    have houtA : outA = jsSetDedup
        (((listAllKeys store (timeIndexPrefixStr T F)).map extractIdFromKey).filter
          (fun id => ids.contains id)) := by
      have := hA
      simp only [Except.ok.injEq] at this
      exact this.symm
    have hkeys : ∀ k ∈ listAllKeys store (timeIndexPrefixStr T F),
        k ∈ store ∧ hasPfx (timeIndexPrefixStr T F) k = true := by
      intro k hk
      unfold listAllKeys at hk
      have hm := List.mem_of_mem_take hk
      exact ⟨(List.mem_filter.mp hm).1, (List.mem_filter.mp hm).2⟩
    have hsub : (listAllKeys store (timeIndexPrefixStr T F)).Sublist store :=
      (List.take_sublist _ _).trans (List.filter_sublist _)
    have hpw : List.Pairwise (· < ·) (listAllKeys store (timeIndexPrefixStr T F)) :=
      hsorted.sublist hsub
    have hpw2 : List.Pairwise
        (fun k1 k2 => tsOf (extractIdFromKey k1) ≤ tsOf (extractIdFromKey k2))
        (listAllKeys store (timeIndexPrefixStr T F)) := by
      refine List.Pairwise.imp_of_mem ?_ hpw
      intro k1 k2 hm1 hm2 hlt
      obtain ⟨hs1, hp1⟩ := hkeys k1 hm1
      obtain ⟨hs2, hp2⟩ := hkeys k2 hm2
      obtain ⟨id1, hcf1, hlen1, hkeq1⟩ := hshapeA k1 hs1 hp1
      obtain ⟨id2, hcf2, hlen2, hkeq2⟩ := hshapeA k2 hs2 hp2
      rw [hkeq1, hkeq2] at hlt ⊢
      unfold timeIndexKey at hlt ⊢
      rw [extractId_tagKey _ _ _ _ _ hcf1, extractId_tagKey _ _ _ _ _ hcf2]
      have hseg := tagKey_lt_seg (by rw [hlen1, hlen2]) hlt
      exact (string_le_iff _ _).mpr hseg
    rw [houtA]
    have hmap : List.Pairwise (fun a b => tsOf a ≤ tsOf b)
        ((listAllKeys store (timeIndexPrefixStr T F)).map extractIdFromKey) :=
      List.pairwise_map.mpr hpw2
    exact (hmap.sublist (List.filter_sublist _)).sublist (jsSetDedup_sublist _)
  · unfold applySorting at hD
    simp only [hnot, Bool.false_eq_true, if_neg, not_false_eq_true] at hD
    have houtD : outD = jsSetDedup
        (((listAllKeys store (reverseTimeIndexPrefixStr T F)).map extractIdFromKey).filter
          (fun id => ids.contains id)) := by
      have := hD
      simp only [Except.ok.injEq] at this
      exact this.symm
    have hkeys : ∀ k ∈ listAllKeys store (reverseTimeIndexPrefixStr T F),
        k ∈ store ∧ hasPfx (reverseTimeIndexPrefixStr T F) k = true := by
      intro k hk
      unfold listAllKeys at hk
      have hm := List.mem_of_mem_take hk
      exact ⟨(List.mem_filter.mp hm).1, (List.mem_filter.mp hm).2⟩
    have hsub : (listAllKeys store (reverseTimeIndexPrefixStr T F)).Sublist store :=
      (List.take_sublist _ _).trans (List.filter_sublist _)
    have hpw : List.Pairwise (· < ·) (listAllKeys store (reverseTimeIndexPrefixStr T F)) :=
      hsorted.sublist hsub
    have hpiv : pivotMs = 4102444799999 := by decide
    have hpow : (10 : Nat) ^ 20 = 100000000000000000000 := by norm_num
    have hpw2 : List.Pairwise
        (fun k1 k2 => msOf (extractIdFromKey k2) ≤ msOf (extractIdFromKey k1))
        (listAllKeys store (reverseTimeIndexPrefixStr T F)) := by
      refine List.Pairwise.imp_of_mem ?_ hpw
      intro k1 k2 hm1 hm2 hlt
      obtain ⟨hs1, hp1⟩ := hkeys k1 hm1
      obtain ⟨hs2, hp2⟩ := hkeys k2 hm2
      obtain ⟨id1, hcf1, hkeq1, hparse1, hlo1, hhi1⟩ := hshapeD k1 hs1 hp1
      obtain ⟨id2, hcf2, hkeq2, hparse2, hlo2, hhi2⟩ := hshapeD k2 hs2 hp2
      have hgr1 := getReverseTimestamp_of_parse hparse1 hhi1
      have hgr2 := getReverseTimestamp_of_parse hparse2 hhi2
      rw [hkeq1, hkeq2] at hlt ⊢
      unfold reverseTimeIndexKey at hlt ⊢
      rw [extractId_tagKey _ _ _ _ _ hcf1, extractId_tagKey _ _ _ _ _ hcf2]
      rw [hgr1, hgr2] at hlt
      have hb1 : (pivotMs - msOf id1).toNat < 10 ^ 20 := by omega
      have hb2 : (pivotMs - msOf id2).toNat < 10 ^ 20 := by omega
      have hl1 : (padStart20 (natDecStr (pivotMs - msOf id1).toNat)).length = 20 :=
        padStart20_length (by
          rw [natDecStr_length]
          exact length_natDecDigits_le 20 _ hb1 (by norm_num))
      have hl2 : (padStart20 (natDecStr (pivotMs - msOf id2).toNat)).length = 20 :=
        padStart20_length (by
          rw [natDecStr_length]
          exact length_natDecDigits_le 20 _ hb2 (by norm_num))
      have hseg := tagKey_lt_seg (by rw [hl1, hl2]) hlt
      have hr := padded_nat_le_unpack hb1 hb2 hseg
      omega
    rw [houtD]
    have hmap : List.Pairwise (fun a b => msOf b ≤ msOf a)
        ((listAllKeys store (reverseTimeIndexPrefixStr T F)).map extractIdFromKey) :=
      List.pairwise_map.mpr hpw2
    exact (hmap.sublist (List.filter_sublist _)).sublist (jsSetDedup_sublist _)

theorem pairwise_lt_of_lex {l : List String}
    (h : List.Pairwise (fun a b => List.Lex (· < ·) a.data b.data) l) :
    List.Pairwise (· < ·) l :=
  h.imp (fun hab => (string_lt_iff_lex _ _).mpr hab)

/-- Witness for C4 on the concrete two-record sorting store. -/
theorem c4_sort_by_time_index_witness :
    List.Pairwise (fun a b => c4TsOf a ≤ c4TsOf b) c4OutA ∧
      List.Pairwise (fun a b => c4MsOf b ≤ c4MsOf a) c4OutD := by
  refine c4_sort_by_time_index c4Store "task" "createdAt" taskConfig c4Ids c4TsOf 24
    c4TsOf c4MsOf c4OutA c4OutD (pairwise_lt_of_lex (by decide)) (by decide) ?_ ?_ rfl rfl
  · intro k hk hp
    simp only [c4Store, List.mem_cons, List.not_mem_nil, or_false] at hk
    rcases hk with rfl | rfl | rfl | rfl
    · exact absurd hp (by decide)
    · exact absurd hp (by decide)
    · exact ⟨"a1", by decide, by decide, rfl⟩
    · exact ⟨"b2", by decide, by decide, rfl⟩
  · intro k hk hp
    simp only [c4Store, List.mem_cons, List.not_mem_nil, or_false] at hk
    rcases hk with rfl | rfl | rfl | rfl
    · exact ⟨"b2", by decide, rfl, by decide, by decide, by decide⟩
    · exact ⟨"a1", by decide, rfl, by decide, by decide, by decide⟩
    · exact absurd hp (by decide)
    · exact absurd hp (by decide)

/-! ### Claim C1: infrastructure -/

theorem colonFree_of_safePattern {s : String} (h : matchesSafePattern s = true) :
    colonFree s := by
  unfold matchesSafePattern at h
  simp only [Bool.and_eq_true, List.all_eq_true] at h
  intro hmem
  have := h.2 ':' hmem
  simp [isSafeChar] at this

theorem validate_ok_inv {t i : String} (h : validateTypeAndId t i = .ok ()) :
    matchesSafePattern t = true ∧ matchesSafePattern i = true := by
  unfold validateTypeAndId at h
  by_cases h1 : matchesSafePattern t
  · by_cases h2 : matchesSafePattern i
    · exact ⟨h1, h2⟩
    · rw [if_neg (by simp [h1]), if_pos (by simp [h2])] at h
      exact absurd h (by simp)
  · rw [if_pos (by simp [h1])] at h
    exact absurd h (by simp)

theorem mem_filterMap_getField {r : BaseRecord} {fields : List String}
    {g : String → String → IndexOperation} {op : IndexOperation} :
    op ∈ fields.filterMap (fun F => (getField r F).map (g F)) ↔
      ∃ F w, F ∈ fields ∧ getField r F = some w ∧ op = g F w := by
  rw [List.mem_filterMap]
  constructor
  · rintro ⟨F, hF, hsome⟩
    cases hg : getField r F with
    | none => rw [hg] at hsome; simp at hsome
    | some w =>
      rw [hg] at hsome
      simp at hsome
      exact ⟨F, w, hF, hg, hsome.symm⟩
  · rintro ⟨F, w, hF, hg, rfl⟩
    exact ⟨F, hF, by rw [hg]; rfl⟩

theorem mem_flatMap_time {r : BaseRecord} {fields : List String}
    {g h : String → String → IndexOperation} {op : IndexOperation} :
    op ∈ fields.flatMap (fun F =>
      match getField r F with
      | some t => if t = "" then [] else [g F t, h F t]
      | none => []) ↔
      ∃ F t, F ∈ fields ∧ getField r F = some t ∧ t ≠ "" ∧
        (op = g F t ∨ op = h F t) := by
  rw [List.mem_flatMap]
  constructor
  · rintro ⟨F, hF, hm⟩
    cases hg : getField r F with
    | none => rw [hg] at hm; simp at hm
    | some t =>
      simp only [hg] at hm
      by_cases ht : t = ""
      · rw [if_pos ht] at hm; simp at hm
      · rw [if_neg ht] at hm
        simp only [List.mem_cons, List.not_mem_nil, or_false] at hm
        exact ⟨F, t, hF, hg, ht, hm⟩
  · rintro ⟨F, t, hF, hg, ht, hop⟩
    refine ⟨F, hF, ?_⟩
    simp only [hg, if_neg ht]
    simpa using hop

theorem mem_flatMap_tokens {r : BaseRecord} {cfg : TypeConfig}
    (g : String → String → IndexOperation) {op : IndexOperation} :
    op ∈ (tokenizeFields r cfg.searchFields cfg.stopwords).flatMap
        (fun ft => ft.2.map (fun token => g ft.1 token)) ↔
      ∃ F token, F ∈ cfg.searchFields ∧ token ∈ tokensOfField r cfg F ∧
        op = g F token := by
  rw [List.mem_flatMap]
  constructor
  · rintro ⟨ft, hft, hm⟩
    obtain ⟨token, htok, rfl⟩ := List.mem_map.mp hm
    obtain ⟨hF, htoks, _⟩ := mem_tokenizeFields.mp
      (show (ft.1, ft.2) ∈ tokenizeFields r cfg.searchFields cfg.stopwords from hft)
    exact ⟨ft.1, token, hF, htoks ▸ htok, rfl⟩
  · rintro ⟨F, token, hF, htok, rfl⟩
    refine ⟨(F, tokensOfField r cfg F), ?_, ?_⟩
    · exact mem_tokenizeFields.mpr ⟨hF, rfl, fun he => by rw [he] at htok; simp at htok⟩
    · exact List.mem_map.mpr ⟨token, htok, rfl⟩

theorem mem_flatMap_eqUpdate {oldR newR : BaseRecord} {fields : List String}
    {d p : String → String → IndexOperation} {op : IndexOperation} :
    op ∈ fields.flatMap (fun F =>
      if getField oldR F ≠ getField newR F then
        (match getField oldR F with
         | some v => [d F v]
         | none => [])
        ++ (match getField newR F with
         | some v => [p F v]
         | none => [])
      else []) ↔
      ∃ F, F ∈ fields ∧ getField oldR F ≠ getField newR F ∧
        ((∃ vo, getField oldR F = some vo ∧ op = d F vo) ∨
          (∃ vn, getField newR F = some vn ∧ op = p F vn)) := by
  rw [List.mem_flatMap]
  constructor
  · rintro ⟨F, hF, hm⟩
    by_cases hch : getField oldR F ≠ getField newR F
    · rw [if_pos hch] at hm
      refine ⟨F, hF, hch, ?_⟩
      rcases List.mem_append.mp hm with h1 | h1
      · cases hg : getField oldR F with
        | none => simp only [hg] at h1; simp at h1
        | some vo =>
          simp only [hg, List.mem_singleton] at h1
          exact Or.inl ⟨vo, rfl, h1⟩
      · cases hg : getField newR F with
        | none => simp only [hg] at h1; simp at h1
        | some vn =>
          simp only [hg, List.mem_singleton] at h1
          exact Or.inr ⟨vn, rfl, h1⟩
    · rw [if_neg hch] at hm
      simp at hm
  · rintro ⟨F, hF, hch, hcases⟩
    refine ⟨F, hF, ?_⟩
    rw [if_pos hch]
    rcases hcases with ⟨vo, hg, rfl⟩ | ⟨vn, hg, rfl⟩
    · exact List.mem_append_left _ (by simp [hg])
    · exact List.mem_append_right _ (by simp [hg])

theorem mem_flatMap_timeUpdate {oldR newR : BaseRecord} {fields : List String}
    {d1 d2 p1 p2 : String → String → IndexOperation} {op : IndexOperation} :
    op ∈ fields.flatMap (fun F =>
      if getField oldR F ≠ getField newR F then
        (match getField oldR F with
         | some t => if t = "" then [] else [d1 F t, d2 F t]
         | none => [])
        ++ (match getField newR F with
         | some t => if t = "" then [] else [p1 F t, p2 F t]
         | none => [])
      else []) ↔
      ∃ F, F ∈ fields ∧ getField oldR F ≠ getField newR F ∧
        ((∃ t, getField oldR F = some t ∧ t ≠ "" ∧ (op = d1 F t ∨ op = d2 F t)) ∨
          (∃ t, getField newR F = some t ∧ t ≠ "" ∧ (op = p1 F t ∨ op = p2 F t))) := by
  rw [List.mem_flatMap]
  constructor
  · rintro ⟨F, hF, hm⟩
    by_cases hch : getField oldR F ≠ getField newR F
    · rw [if_pos hch] at hm
      refine ⟨F, hF, hch, ?_⟩
      rcases List.mem_append.mp hm with h1 | h1
      · cases hg : getField oldR F with
        | none => simp only [hg] at h1; simp at h1
        | some t =>
          simp only [hg] at h1
          by_cases ht : t = ""
          · rw [if_pos ht] at h1; simp at h1
          · rw [if_neg ht] at h1
            simp only [List.mem_cons, List.not_mem_nil, or_false] at h1
            exact Or.inl ⟨t, rfl, ht, h1⟩
      · cases hg : getField newR F with
        | none => simp only [hg] at h1; simp at h1
        | some t =>
          simp only [hg] at h1
          by_cases ht : t = ""
          · rw [if_pos ht] at h1; simp at h1
          · rw [if_neg ht] at h1
            simp only [List.mem_cons, List.not_mem_nil, or_false] at h1
            exact Or.inr ⟨t, rfl, ht, h1⟩
    · rw [if_neg hch] at hm
      simp at hm
  · rintro ⟨F, hF, hch, hcases⟩
    refine ⟨F, hF, ?_⟩
    rw [if_pos hch]
    rcases hcases with ⟨t, hg, ht, hop⟩ | ⟨t, hg, ht, hop⟩
    · refine List.mem_append_left _ ?_
      simp only [hg, if_neg ht]
      simpa using hop
    · refine List.mem_append_right _ ?_
      simp only [hg, if_neg ht]
      simpa using hop

theorem mem_flatMap_tokenUpdate {oldR newR : BaseRecord} {cfg : TypeConfig}
    {d p : String → String → IndexOperation} {op : IndexOperation} :
    op ∈ cfg.searchFields.flatMap (fun F =>
      (diffTokenSets (tokensOfField oldR cfg F) (tokensOfField newR cfg F)).2.map
        (fun token => d F token)
      ++ (diffTokenSets (tokensOfField oldR cfg F) (tokensOfField newR cfg F)).1.map
        (fun token => p F token)) ↔
      ∃ F token, F ∈ cfg.searchFields ∧
        ((token ∈ tokensOfField oldR cfg F ∧ token ∉ tokensOfField newR cfg F ∧
          op = d F token) ∨
         (token ∈ tokensOfField newR cfg F ∧ token ∉ tokensOfField oldR cfg F ∧
          op = p F token)) := by
  rw [List.mem_flatMap]
  have hmemdiff2 : ∀ (a b : List String) (x : String),
      x ∈ (diffTokenSets a b).2 ↔ x ∈ a ∧ x ∉ b := by
    intro a b x
    unfold diffTokenSets
    simp [List.mem_filter, List.elem_iff]
  have hmemdiff1 : ∀ (a b : List String) (x : String),
      x ∈ (diffTokenSets a b).1 ↔ x ∈ b ∧ x ∉ a := by
    intro a b x
    unfold diffTokenSets
    simp [List.mem_filter, List.elem_iff]
  constructor
  · rintro ⟨F, hF, hm⟩
    rcases List.mem_append.mp hm with h1 | h1
    · obtain ⟨token, htok, rfl⟩ := List.mem_map.mp h1
      obtain ⟨ho, hn⟩ := (hmemdiff2 _ _ _).mp htok
      exact ⟨F, token, hF, Or.inl ⟨ho, hn, rfl⟩⟩
    · obtain ⟨token, htok, rfl⟩ := List.mem_map.mp h1
      obtain ⟨hn, ho⟩ := (hmemdiff1 _ _ _).mp htok
      exact ⟨F, token, hF, Or.inr ⟨hn, ho, rfl⟩⟩
  · rintro ⟨F, token, hF, hcases⟩
    refine ⟨F, hF, ?_⟩
    rcases hcases with ⟨ho, hn, rfl⟩ | ⟨hn, ho, rfl⟩
    · exact List.mem_append_left _
        (List.mem_map.mpr ⟨token, (hmemdiff2 _ _ _).mpr ⟨ho, hn⟩, rfl⟩)
    · exact List.mem_append_right _
        (List.mem_map.mpr ⟨token, (hmemdiff1 _ _ _).mpr ⟨hn, ho⟩, rfl⟩)

theorem equalityIndexKey_eq (T F v i : String) :
    equalityIndexKey T F v i = tagKey "idx" T F (substringTo v 500) i := rfl

theorem timeIndexKey_eq (T F t i : String) :
    timeIndexKey T F t i = tagKey "ts" T F t i := rfl

theorem reverseTimeIndexKey_eq (T F t i : String) :
    reverseTimeIndexKey T F t i = tagKey "ts-desc" T F (getReverseTimestamp t) i := rfl

theorem invertedIndexKey_eq (T F token i : String) :
    invertedIndexKey T F token i = tagKey "inv" T F token i := rfl

theorem mem_createIndexesOps {r : BaseRecord} {cfg : TypeConfig} {op : IndexOperation} :
    op ∈ createIndexesOps r cfg ↔
      (∃ F w, F ∈ cfg.indexedFields ∧ getField r F = some w ∧
        op = batchPut (equalityIndexKey r.type F (indexedValueStr cfg w) r.id)) ∨
      (∃ F t, F ∈ cfg.timeFields ∧ getField r F = some t ∧ t ≠ "" ∧
        (op = batchPut (timeIndexKey r.type F t r.id) ∨
          op = batchPut (reverseTimeIndexKey r.type F t r.id))) ∨
      (∃ F token, F ∈ cfg.searchFields ∧ token ∈ tokensOfField r cfg F ∧
        op = batchPut (invertedIndexKey r.type F token r.id)) := by
  have h1 : op ∈ cfg.indexedFields.filterMap (fun F => (getField r F).map
        (fun value => batchPut (equalityIndexKey r.type F (indexedValueStr cfg value) r.id))) ↔
      ∃ F w, F ∈ cfg.indexedFields ∧ getField r F = some w ∧
        op = batchPut (equalityIndexKey r.type F (indexedValueStr cfg w) r.id) :=
    mem_filterMap_getField
  have h2 : op ∈ cfg.timeFields.flatMap (fun F =>
        match getField r F with
        | some timestamp =>
          if timestamp = "" then []
          else [batchPut (timeIndexKey r.type F timestamp r.id),
                batchPut (reverseTimeIndexKey r.type F timestamp r.id)]
        | none => []) ↔
      ∃ F t, F ∈ cfg.timeFields ∧ getField r F = some t ∧ t ≠ "" ∧
        (op = batchPut (timeIndexKey r.type F t r.id) ∨
          op = batchPut (reverseTimeIndexKey r.type F t r.id)) :=
    mem_flatMap_time
  have h3 : op ∈ (tokenizeFields r cfg.searchFields cfg.stopwords).flatMap
        (fun ft => ft.2.map (fun token => batchPut (invertedIndexKey r.type ft.1 token r.id))) ↔
      ∃ F token, F ∈ cfg.searchFields ∧ token ∈ tokensOfField r cfg F ∧
        op = batchPut (invertedIndexKey r.type F token r.id) :=
    mem_flatMap_tokens (fun F token => batchPut (invertedIndexKey r.type F token r.id))
  unfold createIndexesOps
  simp only [List.mem_append]
  rw [h1, h2, h3]
  exact or_assoc

theorem mem_deleteIndexesOps {r : BaseRecord} {cfg : TypeConfig} {op : IndexOperation} :
    op ∈ deleteIndexesOps r cfg ↔
      (∃ F w, F ∈ cfg.indexedFields ∧ getField r F = some w ∧
        op = batchDelete (equalityIndexKey r.type F (indexedValueStr cfg w) r.id)) ∨
      (∃ F t, F ∈ cfg.timeFields ∧ getField r F = some t ∧ t ≠ "" ∧
        (op = batchDelete (timeIndexKey r.type F t r.id) ∨
          op = batchDelete (reverseTimeIndexKey r.type F t r.id))) ∨
      (∃ F token, F ∈ cfg.searchFields ∧ token ∈ tokensOfField r cfg F ∧
        op = batchDelete (invertedIndexKey r.type F token r.id)) := by
  have h1 : op ∈ cfg.indexedFields.filterMap (fun F => (getField r F).map
        (fun value => batchDelete (equalityIndexKey r.type F (indexedValueStr cfg value) r.id))) ↔
      ∃ F w, F ∈ cfg.indexedFields ∧ getField r F = some w ∧
        op = batchDelete (equalityIndexKey r.type F (indexedValueStr cfg w) r.id) :=
    mem_filterMap_getField
  have h2 : op ∈ cfg.timeFields.flatMap (fun F =>
        match getField r F with
        | some timestamp =>
          if timestamp = "" then []
          else [batchDelete (timeIndexKey r.type F timestamp r.id),
                batchDelete (reverseTimeIndexKey r.type F timestamp r.id)]
        | none => []) ↔
      ∃ F t, F ∈ cfg.timeFields ∧ getField r F = some t ∧ t ≠ "" ∧
        (op = batchDelete (timeIndexKey r.type F t r.id) ∨
          op = batchDelete (reverseTimeIndexKey r.type F t r.id)) :=
    mem_flatMap_time
  have h3 : op ∈ (tokenizeFields r cfg.searchFields cfg.stopwords).flatMap
        (fun ft => ft.2.map (fun token => batchDelete (invertedIndexKey r.type ft.1 token r.id))) ↔
      ∃ F token, F ∈ cfg.searchFields ∧ token ∈ tokensOfField r cfg F ∧
        op = batchDelete (invertedIndexKey r.type F token r.id) :=
    mem_flatMap_tokens (fun F token => batchDelete (invertedIndexKey r.type F token r.id))
  unfold deleteIndexesOps
  simp only [List.mem_append]
  rw [h1, h2, h3]
  exact or_assoc

theorem mem_updateIndexesOps {oldR newR : BaseRecord} {cfg : TypeConfig}
    {op : IndexOperation} :
    op ∈ updateIndexesOps oldR newR cfg ↔
      (∃ F, F ∈ cfg.indexedFields ∧ getField oldR F ≠ getField newR F ∧
        ((∃ vo, getField oldR F = some vo ∧
            op = batchDelete (equalityIndexKey newR.type F (indexedValueStr cfg vo) newR.id)) ∨
          (∃ vn, getField newR F = some vn ∧
            op = batchPut (equalityIndexKey newR.type F (indexedValueStr cfg vn) newR.id)))) ∨
      (∃ F, F ∈ cfg.timeFields ∧ getField oldR F ≠ getField newR F ∧
        ((∃ t, getField oldR F = some t ∧ t ≠ "" ∧
            (op = batchDelete (timeIndexKey newR.type F t newR.id) ∨
              op = batchDelete (reverseTimeIndexKey newR.type F t newR.id))) ∨
          (∃ t, getField newR F = some t ∧ t ≠ "" ∧
            (op = batchPut (timeIndexKey newR.type F t newR.id) ∨
              op = batchPut (reverseTimeIndexKey newR.type F t newR.id))))) ∨
      (∃ F token, F ∈ cfg.searchFields ∧
        ((token ∈ tokensOfField oldR cfg F ∧ token ∉ tokensOfField newR cfg F ∧
            op = batchDelete (invertedIndexKey newR.type F token newR.id)) ∨
          (token ∈ tokensOfField newR cfg F ∧ token ∉ tokensOfField oldR cfg F ∧
            op = batchPut (invertedIndexKey newR.type F token newR.id)))) := by
  have h1 : op ∈ cfg.indexedFields.flatMap (fun F =>
        if getField oldR F ≠ getField newR F then
          (match getField oldR F with
           | some v => [batchDelete (equalityIndexKey newR.type F (indexedValueStr cfg v) newR.id)]
           | none => [])
          ++ (match getField newR F with
           | some v => [batchPut (equalityIndexKey newR.type F (indexedValueStr cfg v) newR.id)]
           | none => [])
        else []) ↔
      ∃ F, F ∈ cfg.indexedFields ∧ getField oldR F ≠ getField newR F ∧
        ((∃ vo, getField oldR F = some vo ∧
            op = batchDelete (equalityIndexKey newR.type F (indexedValueStr cfg vo) newR.id)) ∨
          (∃ vn, getField newR F = some vn ∧
            op = batchPut (equalityIndexKey newR.type F (indexedValueStr cfg vn) newR.id))) :=
    mem_flatMap_eqUpdate
  have h2 : op ∈ cfg.timeFields.flatMap (fun F =>
        if getField oldR F ≠ getField newR F then
          (match getField oldR F with
           | some t =>
             if t = "" then []
             else [batchDelete (timeIndexKey newR.type F t newR.id),
                   batchDelete (reverseTimeIndexKey newR.type F t newR.id)]
           | none => [])
          ++ (match getField newR F with
           | some t =>
             if t = "" then []
             else [batchPut (timeIndexKey newR.type F t newR.id),
                   batchPut (reverseTimeIndexKey newR.type F t newR.id)]
           | none => [])
        else []) ↔
      ∃ F, F ∈ cfg.timeFields ∧ getField oldR F ≠ getField newR F ∧
        ((∃ t, getField oldR F = some t ∧ t ≠ "" ∧
            (op = batchDelete (timeIndexKey newR.type F t newR.id) ∨
              op = batchDelete (reverseTimeIndexKey newR.type F t newR.id))) ∨
          (∃ t, getField newR F = some t ∧ t ≠ "" ∧
            (op = batchPut (timeIndexKey newR.type F t newR.id) ∨
              op = batchPut (reverseTimeIndexKey newR.type F t newR.id)))) :=
    mem_flatMap_timeUpdate
  have h3 : op ∈ cfg.searchFields.flatMap (fun F =>
        (diffTokenSets (tokensOfField oldR cfg F) (tokensOfField newR cfg F)).2.map
          (fun token => batchDelete (invertedIndexKey newR.type F token newR.id))
        ++ (diffTokenSets (tokensOfField oldR cfg F) (tokensOfField newR cfg F)).1.map
          (fun token => batchPut (invertedIndexKey newR.type F token newR.id))) ↔
      ∃ F token, F ∈ cfg.searchFields ∧
        ((token ∈ tokensOfField oldR cfg F ∧ token ∉ tokensOfField newR cfg F ∧
            op = batchDelete (invertedIndexKey newR.type F token newR.id)) ∨
          (token ∈ tokensOfField newR cfg F ∧ token ∉ tokensOfField oldR cfg F ∧
            op = batchPut (invertedIndexKey newR.type F token newR.id))) :=
    mem_flatMap_tokenUpdate
  unfold updateIndexesOps
  simp only [List.mem_append]
  rw [h1, h2, h3]
  exact or_assoc

theorem recordIndexed_congr {st1 st2 : KVState} {cfg : TypeConfig} {r : BaseRecord}
    (h : st1.indexes = st2.indexes) (hr : recordIndexed st1 cfg r) :
    recordIndexed st2 cfg r := by
  unfold recordIndexed eqIndexExact timeIndexExact revIndexExact invIndexExact at hr ⊢
  rw [← h]
  exact hr

theorem noDerivedKeys_congr {st1 st2 : KVState} {cfg : TypeConfig} {T id : String}
    (h : st1.indexes = st2.indexes) (hd : noDerivedKeys st1 cfg T id) :
    noDerivedKeys st2 cfg T id := by
  unfold noDerivedKeys at hd ⊢
  rw [← h]
  exact hd

theorem getTypeConfigE_ok {T : String} {cfg : TypeConfig}
    (h : getTypeConfigE T = .ok cfg) : getTypeConfig T = some cfg := by
  unfold getTypeConfigE at h
  cases hg : getTypeConfig T with
  | none => rw [hg] at h; exact absurd h (by simp)
  | some c => rw [hg] at h; simp only [Except.ok.injEq] at h; rw [h]

theorem getRecord_ok_inv {st : KVState} {T id : String} {rec? : Option BaseRecord}
    (h : getRecord st T id = .ok rec?) :
    validateTypeAndId T id = .ok () ∧ rec? = getObject st (objectKey T id) := by
  unfold getRecord at h
  obtain ⟨u, hv, h⟩ := except_bind_ok h
  cases u
  simp only [Except.ok.injEq] at h
  exact ⟨hv, h.symm⟩

theorem createRecord_ok_inv {st : KVState} {T : String} {data : List (String × String)}
    {id now : String} {r : BaseRecord} {st' : KVState}
    (h : createRecord st T data id now = .ok (r, st')) :
    ∃ cfg, getTypeConfig T = some cfg ∧ validateTypeAndId T id = .ok () ∧
      getObject st (objectKey T id) = none ∧
      r = ⟨id, T, now, now, mkOpenFields data⟩ ∧
      st' = executeBatch (putObject st (objectKey T id) r) (createIndexesOps r cfg) := by
  unfold createRecord at h
  obtain ⟨cfg, hc, h⟩ := except_bind_ok h
  obtain ⟨u, hv, h⟩ := except_bind_ok h
  obtain ⟨rec?, hgr, h⟩ := except_bind_ok h
  obtain ⟨hv', hrec⟩ := getRecord_ok_inv hgr
  by_cases hex : rec?.isSome
  · rw [if_pos hex] at h; exact absurd h (by simp)
  · rw [if_neg hex] at h
    by_cases hsz : sizeExceeded cfg (recordSize ⟨id, T, now, now, mkOpenFields data⟩)
    · rw [if_pos hsz] at h; exact absurd h (by simp)
    · rw [if_neg hsz] at h
      simp only [Except.ok.injEq, Prod.mk.injEq] at h
      obtain ⟨hr, hst⟩ := h
      subst hr
      have hn : rec? = none := Option.not_isSome_iff_eq_none.mp hex
      rw [hn] at hrec
      exact ⟨cfg, getTypeConfigE_ok hc, hv', hrec.symm, rfl, hst.symm⟩

theorem updateRecord_ok_inv {st : KVState} {T id : String}
    {data : List (String × String)} {now : String} {r : BaseRecord} {st' : KVState}
    (h : updateRecord st T id data now = .ok (r, st')) :
    ∃ cfg oldR, getTypeConfig T = some cfg ∧ validateTypeAndId T id = .ok () ∧
      getObject st (objectKey T id) = some oldR ∧
      r = ⟨id, T, oldR.createdAt, now, mkOpenFields data⟩ ∧
      st' = executeBatch (putObject st (objectKey T id) r) (updateIndexesOps oldR r cfg) := by
  unfold updateRecord at h
  obtain ⟨cfg, hc, h⟩ := except_bind_ok h
  obtain ⟨u, hv, h⟩ := except_bind_ok h
  obtain ⟨rec?, hgr, h⟩ := except_bind_ok h
  obtain ⟨hv', hrec⟩ := getRecord_ok_inv hgr
  cases rec? with
  | none => exact absurd h (by simp)
  | some oldR =>
    have h' : (if sizeExceeded cfg
          (recordSize ⟨id, T, oldR.createdAt, now, mkOpenFields data⟩) = true then
        (Except.error "Record too large" : Except String (BaseRecord × KVState))
      else
        Except.ok (⟨id, T, oldR.createdAt, now, mkOpenFields data⟩,
          executeBatch (putObject st (objectKey T id)
              ⟨id, T, oldR.createdAt, now, mkOpenFields data⟩)
            (updateIndexesOps oldR ⟨id, T, oldR.createdAt, now, mkOpenFields data⟩ cfg))) =
        .ok (r, st') := h
    by_cases hsz : sizeExceeded cfg (recordSize ⟨id, T, oldR.createdAt, now, mkOpenFields data⟩)
    · rw [if_pos hsz] at h'; exact absurd h' (by simp)
    · rw [if_neg (by simpa using hsz)] at h'
      simp only [Except.ok.injEq, Prod.mk.injEq] at h'
      obtain ⟨hr, hst⟩ := h'
      subst hr
      exact ⟨cfg, oldR, getTypeConfigE_ok hc, hv', hrec.symm, rfl, hst.symm⟩

theorem patchRecord_ok_inv {st : KVState} {T id : String}
    {patch : List (String × String)} {now : String} {r : BaseRecord} {st' : KVState}
    (h : patchRecord st T id patch now = .ok (r, st')) :
    ∃ oldR, getObject st (objectKey T id) = some oldR ∧
      updateRecord st T id (mergeSpread oldR patch) now = .ok (r, st') := by
  unfold patchRecord at h
  obtain ⟨rec?, hgr, h⟩ := except_bind_ok h
  obtain ⟨hv', hrec⟩ := getRecord_ok_inv hgr
  cases rec? with
  | none => exact absurd h (by simp)
  | some oldR => exact ⟨oldR, hrec.symm, h⟩

theorem deleteRecord_ok_inv {st : KVState} {T id : String} {st' : KVState}
    (h : deleteRecord st T id = .ok st') :
    ∃ cfg, getTypeConfig T = some cfg ∧ validateTypeAndId T id = .ok () ∧
      ((getObject st (objectKey T id) = none ∧ st' = st) ∨
        (∃ rec, getObject st (objectKey T id) = some rec ∧
          st' = executeBatch (deleteObject st (objectKey T id))
            (deleteIndexesOps rec cfg))) := by
  unfold deleteRecord at h
  obtain ⟨cfg, hc, h⟩ := except_bind_ok h
  obtain ⟨u, hv, h⟩ := except_bind_ok h
  obtain ⟨rec?, hgr, h⟩ := except_bind_ok h
  obtain ⟨hv', hrec⟩ := getRecord_ok_inv hgr
  cases rec? with
  | none =>
    simp only [Except.ok.injEq] at h
    exact ⟨cfg, getTypeConfigE_ok hc, hv', Or.inl ⟨hrec.symm, h.symm⟩⟩
  | some rec =>
    simp only [Except.ok.injEq] at h
    exact ⟨cfg, getTypeConfigE_ok hc, hv', Or.inr ⟨rec, hrec.symm, h.symm⟩⟩

theorem mem_putsOf_create {r : BaseRecord} {cfg : TypeConfig} {k : String} :
    k ∈ putsOf (createIndexesOps r cfg) ↔
      (∃ F w, F ∈ cfg.indexedFields ∧ getField r F = some w ∧
        k = equalityIndexKey r.type F (indexedValueStr cfg w) r.id) ∨
      (∃ F t, F ∈ cfg.timeFields ∧ getField r F = some t ∧ t ≠ "" ∧
        (k = timeIndexKey r.type F t r.id ∨ k = reverseTimeIndexKey r.type F t r.id)) ∨
      (∃ F token, F ∈ cfg.searchFields ∧ token ∈ tokensOfField r cfg F ∧
        k = invertedIndexKey r.type F token r.id) := by
  rw [mem_putsOf]
  constructor
  · rintro ⟨op, hop, hk, hso⟩
    rcases mem_createIndexesOps.mp hop with
      ⟨F, w, hF, hgf, rfl⟩ | ⟨F, t, hF, hgf, ht, (rfl | rfl)⟩ | ⟨F, tk, hF, htk, rfl⟩
    · exact Or.inl ⟨F, w, hF, hgf, hk.symm⟩
    · exact Or.inr (Or.inl ⟨F, t, hF, hgf, ht, Or.inl hk.symm⟩)
    · exact Or.inr (Or.inl ⟨F, t, hF, hgf, ht, Or.inr hk.symm⟩)
    · exact Or.inr (Or.inr ⟨F, tk, hF, htk, hk.symm⟩)
  · rintro (⟨F, w, hF, hgf, rfl⟩ | ⟨F, t, hF, hgf, ht, (rfl | rfl)⟩ | ⟨F, tk, hF, htk, rfl⟩)
    · exact ⟨_, mem_createIndexesOps.mpr (Or.inl ⟨F, w, hF, hgf, rfl⟩), rfl, rfl⟩
    · exact ⟨_, mem_createIndexesOps.mpr
        (Or.inr (Or.inl ⟨F, t, hF, hgf, ht, Or.inl rfl⟩)), rfl, rfl⟩
    · exact ⟨_, mem_createIndexesOps.mpr
        (Or.inr (Or.inl ⟨F, t, hF, hgf, ht, Or.inr rfl⟩)), rfl, rfl⟩
    · exact ⟨_, mem_createIndexesOps.mpr (Or.inr (Or.inr ⟨F, tk, hF, htk, rfl⟩)), rfl, rfl⟩

theorem not_mem_deletesOf_create {r : BaseRecord} {cfg : TypeConfig} {k : String} :
    k ∉ deletesOf (createIndexesOps r cfg) := by
  intro hk
  obtain ⟨op, hop, _, hnone⟩ := mem_deletesOf.mp hk
  rcases mem_createIndexesOps.mp hop with
    ⟨_, _, _, _, rfl⟩ | ⟨_, _, _, _, _, (rfl | rfl)⟩ | ⟨_, _, _, _, rfl⟩ <;>
    simp [batchPut] at hnone

theorem mem_deletesOf_delete {r : BaseRecord} {cfg : TypeConfig} {k : String} :
    k ∈ deletesOf (deleteIndexesOps r cfg) ↔
      (∃ F w, F ∈ cfg.indexedFields ∧ getField r F = some w ∧
        k = equalityIndexKey r.type F (indexedValueStr cfg w) r.id) ∨
      (∃ F t, F ∈ cfg.timeFields ∧ getField r F = some t ∧ t ≠ "" ∧
        (k = timeIndexKey r.type F t r.id ∨ k = reverseTimeIndexKey r.type F t r.id)) ∨
      (∃ F token, F ∈ cfg.searchFields ∧ token ∈ tokensOfField r cfg F ∧
        k = invertedIndexKey r.type F token r.id) := by
  rw [mem_deletesOf]
  constructor
  · rintro ⟨op, hop, hk, hno⟩
    rcases mem_deleteIndexesOps.mp hop with
      ⟨F, w, hF, hgf, rfl⟩ | ⟨F, t, hF, hgf, ht, (rfl | rfl)⟩ | ⟨F, tk, hF, htk, rfl⟩
    · exact Or.inl ⟨F, w, hF, hgf, hk.symm⟩
    · exact Or.inr (Or.inl ⟨F, t, hF, hgf, ht, Or.inl hk.symm⟩)
    · exact Or.inr (Or.inl ⟨F, t, hF, hgf, ht, Or.inr hk.symm⟩)
    · exact Or.inr (Or.inr ⟨F, tk, hF, htk, hk.symm⟩)
  · rintro (⟨F, w, hF, hgf, rfl⟩ | ⟨F, t, hF, hgf, ht, (rfl | rfl)⟩ | ⟨F, tk, hF, htk, rfl⟩)
    · exact ⟨_, mem_deleteIndexesOps.mpr (Or.inl ⟨F, w, hF, hgf, rfl⟩), rfl, rfl⟩
    · exact ⟨_, mem_deleteIndexesOps.mpr
        (Or.inr (Or.inl ⟨F, t, hF, hgf, ht, Or.inl rfl⟩)), rfl, rfl⟩
    · exact ⟨_, mem_deleteIndexesOps.mpr
        (Or.inr (Or.inl ⟨F, t, hF, hgf, ht, Or.inr rfl⟩)), rfl, rfl⟩
    · exact ⟨_, mem_deleteIndexesOps.mpr (Or.inr (Or.inr ⟨F, tk, hF, htk, rfl⟩)), rfl, rfl⟩

theorem not_mem_putsOf_delete {r : BaseRecord} {cfg : TypeConfig} {k : String} :
    k ∉ putsOf (deleteIndexesOps r cfg) := by
  intro hk
  obtain ⟨op, hop, _, hso⟩ := mem_putsOf.mp hk
  rcases mem_deleteIndexesOps.mp hop with
    ⟨_, _, _, _, rfl⟩ | ⟨_, _, _, _, _, (rfl | rfl)⟩ | ⟨_, _, _, _, rfl⟩ <;>
    simp [batchDelete] at hso

theorem mem_putsOf_update {o n : BaseRecord} {cfg : TypeConfig} {k : String} :
    k ∈ putsOf (updateIndexesOps o n cfg) ↔
      (∃ F, F ∈ cfg.indexedFields ∧ getField o F ≠ getField n F ∧
        ∃ vn, getField n F = some vn ∧
          k = equalityIndexKey n.type F (indexedValueStr cfg vn) n.id) ∨
      (∃ F, F ∈ cfg.timeFields ∧ getField o F ≠ getField n F ∧
        ∃ t, getField n F = some t ∧ t ≠ "" ∧
          (k = timeIndexKey n.type F t n.id ∨ k = reverseTimeIndexKey n.type F t n.id)) ∨
      (∃ F token, F ∈ cfg.searchFields ∧ token ∈ tokensOfField n cfg F ∧
        token ∉ tokensOfField o cfg F ∧ k = invertedIndexKey n.type F token n.id) := by
  rw [mem_putsOf]
  constructor
  · rintro ⟨op, hop, hk, hso⟩
    rcases mem_updateIndexesOps.mp hop with
      ⟨F, hF, hch, (⟨vo, hgo, rfl⟩ | ⟨vn, hgn, rfl⟩)⟩ |
      ⟨F, hF, hch, (⟨t, hgo, ht, (rfl | rfl)⟩ | ⟨t, hgn, ht, (rfl | rfl)⟩)⟩ |
      ⟨F, tk, hF, (⟨hmo, hnn, rfl⟩ | ⟨hmn, hno, rfl⟩)⟩
    · simp [batchDelete] at hso
    · exact Or.inl ⟨F, hF, hch, vn, hgn, hk.symm⟩
    · simp [batchDelete] at hso
    · simp [batchDelete] at hso
    · exact Or.inr (Or.inl ⟨F, hF, hch, t, hgn, ht, Or.inl hk.symm⟩)
    · exact Or.inr (Or.inl ⟨F, hF, hch, t, hgn, ht, Or.inr hk.symm⟩)
    · simp [batchDelete] at hso
    · exact Or.inr (Or.inr ⟨F, tk, hF, hmn, hno, hk.symm⟩)
  · rintro (⟨F, hF, hch, vn, hgn, rfl⟩ | ⟨F, hF, hch, t, hgn, ht, (rfl | rfl)⟩ |
      ⟨F, tk, hF, hmn, hno, rfl⟩)
    · exact ⟨_, mem_updateIndexesOps.mpr
        (Or.inl ⟨F, hF, hch, Or.inr ⟨vn, hgn, rfl⟩⟩), rfl, rfl⟩
    · exact ⟨_, mem_updateIndexesOps.mpr
        (Or.inr (Or.inl ⟨F, hF, hch, Or.inr ⟨t, hgn, ht, Or.inl rfl⟩⟩)), rfl, rfl⟩
    · exact ⟨_, mem_updateIndexesOps.mpr
        (Or.inr (Or.inl ⟨F, hF, hch, Or.inr ⟨t, hgn, ht, Or.inr rfl⟩⟩)), rfl, rfl⟩
    · exact ⟨_, mem_updateIndexesOps.mpr
        (Or.inr (Or.inr ⟨F, tk, hF, Or.inr ⟨hmn, hno, rfl⟩⟩)), rfl, rfl⟩

theorem mem_deletesOf_update {o n : BaseRecord} {cfg : TypeConfig} {k : String} :
    k ∈ deletesOf (updateIndexesOps o n cfg) ↔
      (∃ F, F ∈ cfg.indexedFields ∧ getField o F ≠ getField n F ∧
        ∃ vo, getField o F = some vo ∧
          k = equalityIndexKey n.type F (indexedValueStr cfg vo) n.id) ∨
      (∃ F, F ∈ cfg.timeFields ∧ getField o F ≠ getField n F ∧
        ∃ t, getField o F = some t ∧ t ≠ "" ∧
          (k = timeIndexKey n.type F t n.id ∨ k = reverseTimeIndexKey n.type F t n.id)) ∨
      (∃ F token, F ∈ cfg.searchFields ∧ token ∈ tokensOfField o cfg F ∧
        token ∉ tokensOfField n cfg F ∧ k = invertedIndexKey n.type F token n.id) := by
  rw [mem_deletesOf]
  constructor
  · rintro ⟨op, hop, hk, hno⟩
    rcases mem_updateIndexesOps.mp hop with
      ⟨F, hF, hch, (⟨vo, hgo, rfl⟩ | ⟨vn, hgn, rfl⟩)⟩ |
      ⟨F, hF, hch, (⟨t, hgo, ht, (rfl | rfl)⟩ | ⟨t, hgn, ht, (rfl | rfl)⟩)⟩ |
      ⟨F, tk, hF, (⟨hmo, hnn, rfl⟩ | ⟨hmn, hno2, rfl⟩)⟩
    · exact Or.inl ⟨F, hF, hch, vo, hgo, hk.symm⟩
    · simp [batchPut] at hno
    · exact Or.inr (Or.inl ⟨F, hF, hch, t, hgo, ht, Or.inl hk.symm⟩)
    · exact Or.inr (Or.inl ⟨F, hF, hch, t, hgo, ht, Or.inr hk.symm⟩)
    · simp [batchPut] at hno
    · simp [batchPut] at hno
    · exact Or.inr (Or.inr ⟨F, tk, hF, hmo, hnn, hk.symm⟩)
    · simp [batchPut] at hno
  · rintro (⟨F, hF, hch, vo, hgo, rfl⟩ | ⟨F, hF, hch, t, hgo, ht, (rfl | rfl)⟩ |
      ⟨F, tk, hF, hmo, hnn, rfl⟩)
    · exact ⟨_, mem_updateIndexesOps.mpr
        (Or.inl ⟨F, hF, hch, Or.inl ⟨vo, hgo, rfl⟩⟩), rfl, rfl⟩
    · exact ⟨_, mem_updateIndexesOps.mpr
        (Or.inr (Or.inl ⟨F, hF, hch, Or.inl ⟨t, hgo, ht, Or.inl rfl⟩⟩)), rfl, rfl⟩
    · exact ⟨_, mem_updateIndexesOps.mpr
        (Or.inr (Or.inl ⟨F, hF, hch, Or.inl ⟨t, hgo, ht, Or.inr rfl⟩⟩)), rfl, rfl⟩
    · exact ⟨_, mem_updateIndexesOps.mpr
        (Or.inr (Or.inr ⟨F, tk, hF, Or.inl ⟨hmo, hnn, rfl⟩⟩)), rfl, rfl⟩

theorem tag_clash {t1 t2 T F s i T' F' s' i' : String}
    (h1 : colonFree t1) (h2 : colonFree t2) (hne : t1 ≠ t2)
    (h : tagKey t1 T F s i = tagKey t2 T' F' s' i') : False :=
  hne (tagKey_tag_eq h1 h2 h)

theorem tagKey_same_parts {t1 t2 T F F' s s' i : String}
    (h1 : colonFree t1) (h2 : colonFree t2) (hT : colonFree T)
    (hF : colonFree F) (hF' : colonFree F') (hi : colonFree i)
    (h : tagKey t1 T F s i = tagKey t2 T F' s' i) :
    t1 = t2 ∧ F = F' ∧ s = s' := by
  obtain ⟨ha, _, hc, hd, _⟩ := tagKey_inj h1 h2 hT hT hF hF' hi hi h
  exact ⟨ha, hc, hd⟩

theorem recordIndexed_create {st : KVState} {cfg : TypeConfig} {r : BaseRecord}
    (hgc : goodConfig cfg) (hT : colonFree r.type) (hid : colonFree r.id)
    (hclean : noDerivedKeys st cfg r.type r.id) :
    recordIndexed (executeBatch st (createIndexesOps r cfg)) cfg r := by
  obtain ⟨hgi, hgt, hgs⟩ := hgc
  obtain ⟨hc1, hc2, hc3, hc4⟩ := hclean
  refine ⟨?_, ?_, ?_, ?_⟩
  · intro F hF v
    rw [mem_executeBatch]
    constructor
    · rintro ⟨hin, hnd⟩
      rcases hin with hp | hsi
      · rcases mem_putsOf_create.mp hp with
          ⟨F', w, hF', hgf, hkey⟩ | ⟨F', t', hF', hgf, ht', (hkey | hkey)⟩ |
          ⟨F', tk', hF', htk', hkey⟩
        · rw [equalityIndexKey_eq] at hkey
          obtain ⟨_, hFF, hseg⟩ := tagKey_same_parts (by decide) (by decide) hT
            (hgi F hF) (hgi F' hF') hid hkey
          subst hFF
          exact ⟨w, hgf, hseg⟩
        · rw [timeIndexKey_eq] at hkey
          exact (tag_clash (by decide) (by decide) (by decide) hkey).elim
        · rw [reverseTimeIndexKey_eq] at hkey
          exact (tag_clash (by decide) (by decide) (by decide) hkey).elim
        · rw [invertedIndexKey_eq] at hkey
          exact (tag_clash (by decide) (by decide) (by decide) hkey).elim
      · exact absurd hsi (hc1 F hF v)
    · rintro ⟨w, hgf, hseg⟩
      refine ⟨Or.inl ?_, not_mem_deletesOf_create⟩
      apply mem_putsOf_create.mpr
      refine Or.inl ⟨F, w, hF, hgf, ?_⟩
      rw [equalityIndexKey_eq, ← hseg]
  · intro F hF t
    rw [mem_executeBatch]
    constructor
    · rintro ⟨hin, hnd⟩
      rcases hin with hp | hsi
      · rcases mem_putsOf_create.mp hp with
          ⟨F', w, hF', hgf, hkey⟩ | ⟨F', t', hF', hgf, ht', (hkey | hkey)⟩ |
          ⟨F', tk', hF', htk', hkey⟩
        · rw [equalityIndexKey_eq] at hkey
          exact (tag_clash (by decide) (by decide) (by decide) hkey).elim
        · rw [timeIndexKey_eq] at hkey
          obtain ⟨_, hFF, hseg⟩ := tagKey_same_parts (by decide) (by decide) hT
            (hgt F hF) (hgt F' hF') hid hkey
          subst hFF
          subst hseg
          exact ⟨hgf, ht'⟩
        · rw [reverseTimeIndexKey_eq] at hkey
          exact (tag_clash (by decide) (by decide) (by decide) hkey).elim
        · rw [invertedIndexKey_eq] at hkey
          exact (tag_clash (by decide) (by decide) (by decide) hkey).elim
      · exact absurd hsi (hc2 F hF t)
    · rintro ⟨hgf, ht⟩
      refine ⟨Or.inl ?_, not_mem_deletesOf_create⟩
      exact mem_putsOf_create.mpr
        (Or.inr (Or.inl ⟨F, t, hF, hgf, ht, Or.inl (by rw [timeIndexKey_eq])⟩))
  · intro F hF s
    rw [mem_executeBatch]
    constructor
    · rintro ⟨hin, hnd⟩
      rcases hin with hp | hsi
      · rcases mem_putsOf_create.mp hp with
          ⟨F', w, hF', hgf, hkey⟩ | ⟨F', t', hF', hgf, ht', (hkey | hkey)⟩ |
          ⟨F', tk', hF', htk', hkey⟩
        · rw [equalityIndexKey_eq] at hkey
          exact (tag_clash (by decide) (by decide) (by decide) hkey).elim
        · rw [timeIndexKey_eq] at hkey
          exact (tag_clash (by decide) (by decide) (by decide) hkey).elim
        · rw [reverseTimeIndexKey_eq] at hkey
          obtain ⟨_, hFF, hseg⟩ := tagKey_same_parts (by decide) (by decide) hT
            (hgt F hF) (hgt F' hF') hid hkey
          subst hFF
          exact ⟨t', hgf, ht', hseg⟩
        · rw [invertedIndexKey_eq] at hkey
          exact (tag_clash (by decide) (by decide) (by decide) hkey).elim
      · exact absurd hsi (hc3 F hF s)
    · rintro ⟨t, hgf, ht, hs⟩
      refine ⟨Or.inl ?_, not_mem_deletesOf_create⟩
      exact mem_putsOf_create.mpr
        (Or.inr (Or.inl ⟨F, t, hF, hgf, ht,
          Or.inr (by rw [reverseTimeIndexKey_eq, ← hs])⟩))
  · intro F hF tk
    rw [mem_executeBatch]
    constructor
    · rintro ⟨hin, hnd⟩
      rcases hin with hp | hsi
      · rcases mem_putsOf_create.mp hp with
          ⟨F', w, hF', hgf, hkey⟩ | ⟨F', t', hF', hgf, ht', (hkey | hkey)⟩ |
          ⟨F', tk', hF', htk', hkey⟩
        · rw [equalityIndexKey_eq] at hkey
          exact (tag_clash (by decide) (by decide) (by decide) hkey).elim
        · rw [timeIndexKey_eq] at hkey
          exact (tag_clash (by decide) (by decide) (by decide) hkey).elim
        · rw [reverseTimeIndexKey_eq] at hkey
          exact (tag_clash (by decide) (by decide) (by decide) hkey).elim
        · rw [invertedIndexKey_eq] at hkey
          obtain ⟨_, hFF, hseg⟩ := tagKey_same_parts (by decide) (by decide) hT
            (hgs F hF) (hgs F' hF') hid hkey
          subst hFF
          subst hseg
          exact htk'
      · exact absurd hsi (hc4 F hF tk)
    · intro htk
      refine ⟨Or.inl ?_, not_mem_deletesOf_create⟩
      exact mem_putsOf_create.mpr
        (Or.inr (Or.inr ⟨F, tk, hF, htk, by rw [invertedIndexKey_eq]⟩))

theorem recordIndexed_update {st : KVState} {cfg : TypeConfig} {o n : BaseRecord}
    (hgc : goodConfig cfg) (hT : colonFree n.type) (hid : colonFree n.id)
    (hty : o.type = n.type) (hoid : o.id = n.id)
    (hIdx : recordIndexed st cfg o)
    (hucf : updateCollisionFree cfg o n) :
    recordIndexed (executeBatch st (updateIndexesOps o n cfg)) cfg n := by
  obtain ⟨hgi, hgt, hgs⟩ := hgc
  obtain ⟨hE, hA, hR, hV⟩ := hIdx
  obtain ⟨hu1, hu2⟩ := hucf
  unfold eqIndexExact at hE
  unfold timeIndexExact at hA
  unfold revIndexExact at hR
  unfold invIndexExact at hV
  simp only [hty, hoid] at hE hA hR hV
  refine ⟨?_, ?_, ?_, ?_⟩
  · intro F hF v
    rw [mem_executeBatch]
    constructor
    · rintro ⟨hin, hnd⟩
      rcases hin with hp | hsi
      · rcases mem_putsOf_update.mp hp with
          ⟨F', hF', hch', vn, hgn, hkey⟩ |
          ⟨F', hF', hch', t', hgn, ht', (hkey | hkey)⟩ |
          ⟨F', tk', hF', hmn', hno', hkey⟩
        · rw [equalityIndexKey_eq] at hkey
          obtain ⟨_, hFF, hseg⟩ := tagKey_same_parts (by decide) (by decide) hT
            (hgi F hF) (hgi F' hF') hid hkey
          subst hFF
          exact ⟨vn, hgn, hseg⟩
        · rw [timeIndexKey_eq] at hkey
          exact (tag_clash (by decide) (by decide) (by decide) hkey).elim
        · rw [reverseTimeIndexKey_eq] at hkey
          exact (tag_clash (by decide) (by decide) (by decide) hkey).elim
        · rw [invertedIndexKey_eq] at hkey
          exact (tag_clash (by decide) (by decide) (by decide) hkey).elim
      · obtain ⟨w, hgw, hv⟩ := (hE F hF v).mp hsi
        by_cases hch : getField o F = getField n F
        · exact ⟨w, by rw [← hch]; exact hgw, hv⟩
        · exact (hnd (mem_deletesOf_update.mpr (Or.inl ⟨F, hF, hch, w, hgw,
            by rw [equalityIndexKey_eq, ← hv]⟩))).elim
    · rintro ⟨w, hgw, hv⟩
      by_cases hch : getField o F = getField n F
      · refine ⟨Or.inr ((hE F hF v).mpr ⟨w, by rw [hch]; exact hgw, hv⟩), ?_⟩
        intro hd
        rcases mem_deletesOf_update.mp hd with
          ⟨F', hF', hch', vo, hgo, hkey⟩ |
          ⟨F', hF', hch', t', hgo, ht', (hkey | hkey)⟩ |
          ⟨F', tk', hF', hmo', hnn', hkey⟩
        · rw [equalityIndexKey_eq] at hkey
          obtain ⟨_, hFF, _⟩ := tagKey_same_parts (by decide) (by decide) hT
            (hgi F hF) (hgi F' hF') hid hkey
          exact hch' (hFF ▸ hch)
        · rw [timeIndexKey_eq] at hkey
          exact tag_clash (by decide) (by decide) (by decide) hkey
        · rw [reverseTimeIndexKey_eq] at hkey
          exact tag_clash (by decide) (by decide) (by decide) hkey
        · rw [invertedIndexKey_eq] at hkey
          exact tag_clash (by decide) (by decide) (by decide) hkey
      · refine ⟨Or.inl (mem_putsOf_update.mpr (Or.inl ⟨F, hF, hch, w, hgw,
          by rw [equalityIndexKey_eq, ← hv]⟩)), ?_⟩
        intro hd
        rcases mem_deletesOf_update.mp hd with
          ⟨F', hF', hch', vo, hgo, hkey⟩ |
          ⟨F', hF', hch', t', hgo, ht', (hkey | hkey)⟩ |
          ⟨F', tk', hF', hmo', hnn', hkey⟩
        · rw [equalityIndexKey_eq] at hkey
          obtain ⟨_, hFF, hseg⟩ := tagKey_same_parts (by decide) (by decide) hT
            (hgi F hF) (hgi F' hF') hid hkey
          subst hFF
          have hcoll := hu1 F hF
          simp only [hgo, hgw] at hcoll
          by_cases hvw : vo = w
          · subst hvw
            exact hch (by rw [hgo, hgw])
          · exact hcoll hvw (by rw [← hseg]; exact hv)
        · rw [timeIndexKey_eq] at hkey
          exact tag_clash (by decide) (by decide) (by decide) hkey
        · rw [reverseTimeIndexKey_eq] at hkey
          exact tag_clash (by decide) (by decide) (by decide) hkey
        · rw [invertedIndexKey_eq] at hkey
          exact tag_clash (by decide) (by decide) (by decide) hkey
  · intro F hF t
    rw [mem_executeBatch]
    constructor
    · rintro ⟨hin, hnd⟩
      rcases hin with hp | hsi
      · rcases mem_putsOf_update.mp hp with
          ⟨F', hF', hch', vn, hgn, hkey⟩ |
          ⟨F', hF', hch', t', hgn, ht', (hkey | hkey)⟩ |
          ⟨F', tk', hF', hmn', hno', hkey⟩
        · rw [equalityIndexKey_eq] at hkey
          exact (tag_clash (by decide) (by decide) (by decide) hkey).elim
        · rw [timeIndexKey_eq] at hkey
          obtain ⟨_, hFF, hseg⟩ := tagKey_same_parts (by decide) (by decide) hT
            (hgt F hF) (hgt F' hF') hid hkey
          subst hFF
          subst hseg
          exact ⟨hgn, ht'⟩
        · rw [reverseTimeIndexKey_eq] at hkey
          exact (tag_clash (by decide) (by decide) (by decide) hkey).elim
        · rw [invertedIndexKey_eq] at hkey
          exact (tag_clash (by decide) (by decide) (by decide) hkey).elim
      · obtain ⟨hgo, ht⟩ := (hA F hF t).mp hsi
        by_cases hch : getField o F = getField n F
        · exact ⟨by rw [← hch]; exact hgo, ht⟩
        · exact (hnd (mem_deletesOf_update.mpr (Or.inr (Or.inl ⟨F, hF, hch, t, hgo, ht,
            Or.inl (by rw [timeIndexKey_eq])⟩)))).elim
    · rintro ⟨hgn, ht⟩
      by_cases hch : getField o F = getField n F
      · refine ⟨Or.inr ((hA F hF t).mpr ⟨by rw [hch]; exact hgn, ht⟩), ?_⟩
        intro hd
        rcases mem_deletesOf_update.mp hd with
          ⟨F', hF', hch', vo, hgo, hkey⟩ |
          ⟨F', hF', hch', t', hgo, ht', (hkey | hkey)⟩ |
          ⟨F', tk', hF', hmo', hnn', hkey⟩
        · rw [equalityIndexKey_eq] at hkey
          exact tag_clash (by decide) (by decide) (by decide) hkey
        · rw [timeIndexKey_eq] at hkey
          obtain ⟨_, hFF, _⟩ := tagKey_same_parts (by decide) (by decide) hT
            (hgt F hF) (hgt F' hF') hid hkey
          exact hch' (hFF ▸ hch)
        · rw [reverseTimeIndexKey_eq] at hkey
          exact tag_clash (by decide) (by decide) (by decide) hkey
        · rw [invertedIndexKey_eq] at hkey
          exact tag_clash (by decide) (by decide) (by decide) hkey
      · refine ⟨Or.inl (mem_putsOf_update.mpr (Or.inr (Or.inl ⟨F, hF, hch, t, hgn, ht,
          Or.inl (by rw [timeIndexKey_eq])⟩))), ?_⟩
        intro hd
        rcases mem_deletesOf_update.mp hd with
          ⟨F', hF', hch', vo, hgo, hkey⟩ |
          ⟨F', hF', hch', t', hgo, ht', (hkey | hkey)⟩ |
          ⟨F', tk', hF', hmo', hnn', hkey⟩
        · rw [equalityIndexKey_eq] at hkey
          exact tag_clash (by decide) (by decide) (by decide) hkey
        · rw [timeIndexKey_eq] at hkey
          obtain ⟨_, hFF, hseg⟩ := tagKey_same_parts (by decide) (by decide) hT
            (hgt F hF) (hgt F' hF') hid hkey
          subst hFF
          subst hseg
          exact hch (by rw [hgo, hgn])
        · rw [reverseTimeIndexKey_eq] at hkey
          exact tag_clash (by decide) (by decide) (by decide) hkey
        · rw [invertedIndexKey_eq] at hkey
          exact tag_clash (by decide) (by decide) (by decide) hkey
  · intro F hF s
    rw [mem_executeBatch]
    constructor
    · rintro ⟨hin, hnd⟩
      rcases hin with hp | hsi
      · rcases mem_putsOf_update.mp hp with
          ⟨F', hF', hch', vn, hgn, hkey⟩ |
          ⟨F', hF', hch', t', hgn, ht', (hkey | hkey)⟩ |
          ⟨F', tk', hF', hmn', hno', hkey⟩
        · rw [equalityIndexKey_eq] at hkey
          exact (tag_clash (by decide) (by decide) (by decide) hkey).elim
        · rw [timeIndexKey_eq] at hkey
          exact (tag_clash (by decide) (by decide) (by decide) hkey).elim
        · rw [reverseTimeIndexKey_eq] at hkey
          obtain ⟨_, hFF, hseg⟩ := tagKey_same_parts (by decide) (by decide) hT
            (hgt F hF) (hgt F' hF') hid hkey
          subst hFF
          exact ⟨t', hgn, ht', hseg⟩
        · rw [invertedIndexKey_eq] at hkey
          exact (tag_clash (by decide) (by decide) (by decide) hkey).elim
      · obtain ⟨ta, hgo, hta, hs⟩ := (hR F hF s).mp hsi
        by_cases hch : getField o F = getField n F
        · exact ⟨ta, by rw [← hch]; exact hgo, hta, hs⟩
        · exact (hnd (mem_deletesOf_update.mpr (Or.inr (Or.inl ⟨F, hF, hch, ta, hgo, hta,
            Or.inr (by rw [reverseTimeIndexKey_eq, ← hs])⟩)))).elim
    · rintro ⟨t, hgn, ht, hs⟩
      by_cases hch : getField o F = getField n F
      · refine ⟨Or.inr ((hR F hF s).mpr ⟨t, by rw [hch]; exact hgn, ht, hs⟩), ?_⟩
        intro hd
        rcases mem_deletesOf_update.mp hd with
          ⟨F', hF', hch', vo, hgo, hkey⟩ |
          ⟨F', hF', hch', t', hgo, ht', (hkey | hkey)⟩ |
          ⟨F', tk', hF', hmo', hnn', hkey⟩
        · rw [equalityIndexKey_eq] at hkey
          exact tag_clash (by decide) (by decide) (by decide) hkey
        · rw [timeIndexKey_eq] at hkey
          exact tag_clash (by decide) (by decide) (by decide) hkey
        · rw [reverseTimeIndexKey_eq] at hkey
          obtain ⟨_, hFF, _⟩ := tagKey_same_parts (by decide) (by decide) hT
            (hgt F hF) (hgt F' hF') hid hkey
          exact hch' (hFF ▸ hch)
        · rw [invertedIndexKey_eq] at hkey
          exact tag_clash (by decide) (by decide) (by decide) hkey
      · refine ⟨Or.inl (mem_putsOf_update.mpr (Or.inr (Or.inl ⟨F, hF, hch, t, hgn, ht,
          Or.inr (by rw [reverseTimeIndexKey_eq, ← hs])⟩))), ?_⟩
        intro hd
        rcases mem_deletesOf_update.mp hd with
          ⟨F', hF', hch', vo, hgo, hkey⟩ |
          ⟨F', hF', hch', t', hgo, ht', (hkey | hkey)⟩ |
          ⟨F', tk', hF', hmo', hnn', hkey⟩
        · rw [equalityIndexKey_eq] at hkey
          exact tag_clash (by decide) (by decide) (by decide) hkey
        · rw [timeIndexKey_eq] at hkey
          exact tag_clash (by decide) (by decide) (by decide) hkey
        · rw [reverseTimeIndexKey_eq] at hkey
          obtain ⟨_, hFF, hseg⟩ := tagKey_same_parts (by decide) (by decide) hT
            (hgt F hF) (hgt F' hF') hid hkey
          subst hFF
          have hcoll := hu2 F hF
          simp only [hgo, hgn] at hcoll
          by_cases hat : t' = t
          · subst hat
            exact hch (by rw [hgo, hgn])
          · exact hcoll hat ht' ht (by rw [← hseg]; exact hs)
        · rw [invertedIndexKey_eq] at hkey
          exact tag_clash (by decide) (by decide) (by decide) hkey
  · intro F hF tk
    rw [mem_executeBatch]
    constructor
    · rintro ⟨hin, hnd⟩
      rcases hin with hp | hsi
      · rcases mem_putsOf_update.mp hp with
          ⟨F', hF', hch', vn, hgn, hkey⟩ |
          ⟨F', hF', hch', t', hgn, ht', (hkey | hkey)⟩ |
          ⟨F', tk', hF', hmn', hno', hkey⟩
        · rw [equalityIndexKey_eq] at hkey
          exact (tag_clash (by decide) (by decide) (by decide) hkey).elim
        · rw [timeIndexKey_eq] at hkey
          exact (tag_clash (by decide) (by decide) (by decide) hkey).elim
        · rw [reverseTimeIndexKey_eq] at hkey
          exact (tag_clash (by decide) (by decide) (by decide) hkey).elim
        · rw [invertedIndexKey_eq] at hkey
          obtain ⟨_, hFF, hseg⟩ := tagKey_same_parts (by decide) (by decide) hT
            (hgs F hF) (hgs F' hF') hid hkey
          subst hFF
          subst hseg
          exact hmn'
      · have hmo := (hV F hF tk).mp hsi
        by_cases hmn : tk ∈ tokensOfField n cfg F
        · exact hmn
        · exact (hnd (mem_deletesOf_update.mpr (Or.inr (Or.inr ⟨F, tk, hF, hmo, hmn,
            by rw [invertedIndexKey_eq]⟩)))).elim
    · intro hmn
      by_cases hmo : tk ∈ tokensOfField o cfg F
      · refine ⟨Or.inr ((hV F hF tk).mpr hmo), ?_⟩
        intro hd
        rcases mem_deletesOf_update.mp hd with
          ⟨F', hF', hch', vo, hgo, hkey⟩ |
          ⟨F', hF', hch', t', hgo, ht', (hkey | hkey)⟩ |
          ⟨F', tk', hF', hmo', hnn', hkey⟩
        · rw [equalityIndexKey_eq] at hkey
          exact tag_clash (by decide) (by decide) (by decide) hkey
        · rw [timeIndexKey_eq] at hkey
          exact tag_clash (by decide) (by decide) (by decide) hkey
        · rw [reverseTimeIndexKey_eq] at hkey
          exact tag_clash (by decide) (by decide) (by decide) hkey
        · rw [invertedIndexKey_eq] at hkey
          obtain ⟨_, hFF, hseg⟩ := tagKey_same_parts (by decide) (by decide) hT
            (hgs F hF) (hgs F' hF') hid hkey
          subst hFF
          subst hseg
          exact hnn' hmn
      · refine ⟨Or.inl (mem_putsOf_update.mpr (Or.inr (Or.inr ⟨F, tk, hF, hmn, hmo,
          by rw [invertedIndexKey_eq]⟩))), ?_⟩
        intro hd
        rcases mem_deletesOf_update.mp hd with
          ⟨F', hF', hch', vo, hgo, hkey⟩ |
          ⟨F', hF', hch', t', hgo, ht', (hkey | hkey)⟩ |
          ⟨F', tk', hF', hmo', hnn', hkey⟩
        · rw [equalityIndexKey_eq] at hkey
          exact tag_clash (by decide) (by decide) (by decide) hkey
        · rw [timeIndexKey_eq] at hkey
          exact tag_clash (by decide) (by decide) (by decide) hkey
        · rw [reverseTimeIndexKey_eq] at hkey
          exact tag_clash (by decide) (by decide) (by decide) hkey
        · rw [invertedIndexKey_eq] at hkey
          obtain ⟨_, hFF, hseg⟩ := tagKey_same_parts (by decide) (by decide) hT
            (hgs F hF) (hgs F' hF') hid hkey
          subst hFF
          subst hseg
          exact hmo hmo'

theorem noDerivedKeys_delete {st : KVState} {cfg : TypeConfig} {rec : BaseRecord}
    {T id : String} (hty : rec.type = T) (hoid : rec.id = id)
    (hIdx : recordIndexed st cfg rec) :
    noDerivedKeys (executeBatch st (deleteIndexesOps rec cfg)) cfg T id := by
  obtain ⟨hE, hA, hR, hV⟩ := hIdx
  unfold eqIndexExact at hE
  unfold timeIndexExact at hA
  unfold revIndexExact at hR
  unfold invIndexExact at hV
  simp only [hty, hoid] at hE hA hR hV
  refine ⟨?_, ?_, ?_, ?_⟩
  · intro F hF v hmem
    rw [mem_executeBatch] at hmem
    obtain ⟨hin, hnd⟩ := hmem
    rcases hin with hp | hsi
    · exact not_mem_putsOf_delete hp
    · obtain ⟨w, hgw, hv⟩ := (hE F hF v).mp hsi
      exact hnd (mem_deletesOf_delete.mpr (Or.inl ⟨F, w, hF, hgw,
        by rw [hty, hoid, equalityIndexKey_eq, ← hv]⟩))
  · intro F hF t hmem
    rw [mem_executeBatch] at hmem
    obtain ⟨hin, hnd⟩ := hmem
    rcases hin with hp | hsi
    · exact not_mem_putsOf_delete hp
    · obtain ⟨hgw, ht⟩ := (hA F hF t).mp hsi
      exact hnd (mem_deletesOf_delete.mpr (Or.inr (Or.inl ⟨F, t, hF, hgw, ht,
        Or.inl (by rw [hty, hoid, timeIndexKey_eq])⟩)))
  · intro F hF s hmem
    rw [mem_executeBatch] at hmem
    obtain ⟨hin, hnd⟩ := hmem
    rcases hin with hp | hsi
    · exact not_mem_putsOf_delete hp
    · obtain ⟨t, hgw, ht, hs⟩ := (hR F hF s).mp hsi
      exact hnd (mem_deletesOf_delete.mpr (Or.inr (Or.inl ⟨F, t, hF, hgw, ht,
        Or.inr (by rw [hty, hoid, reverseTimeIndexKey_eq, ← hs])⟩)))
  · intro F hF tk hmem
    rw [mem_executeBatch] at hmem
    obtain ⟨hin, hnd⟩ := hmem
    rcases hin with hp | hsi
    · exact not_mem_putsOf_delete hp
    · have hmo := (hV F hF tk).mp hsi
      exact hnd (mem_deletesOf_delete.mpr (Or.inr (Or.inr ⟨F, tk, hF, hmo,
        by rw [hty, hoid, invertedIndexKey_eq]⟩)))

/-! ### Claim C1 -/

/-- C1 (amended): for a registered type, the derived-index invariant holds
after every successful CRUD call, under the collision-freedom provisos that
make the concurrent index batch unambiguous.  A `createRecord` into a store
carrying no stale derived keys for the new id leaves the new record exactly
indexed; an `updateRecord` of a correctly indexed record whose changed
indexed fields keep distinct truncated encodings and whose changed time
fields keep distinct reverse-timestamp encodings leaves the new record
exactly indexed, with no key for a stale value; a `deleteRecord` of a
correctly indexed record removes every derived key of its id. -/
theorem c1_derived_index_invariant (T : String) (cfg : TypeConfig)
    (hcfg : getTypeConfig T = some cfg) :
    (∀ st data id now r st',
      noDerivedKeys st cfg T id →
      createRecord st T data id now = .ok (r, st') →
      recordIndexed st' cfg r) ∧
    (∀ st id data now oldR r st',
      getObject st (objectKey T id) = some oldR →
      oldR.type = T → oldR.id = id →
      recordIndexed st cfg oldR →
      updateRecord st T id data now = .ok (r, st') →
      updateCollisionFree cfg oldR r →
      recordIndexed st' cfg r) ∧
    (∀ st id rec st',
      getObject st (objectKey T id) = some rec →
      rec.type = T → rec.id = id →
      recordIndexed st cfg rec →
      deleteRecord st T id = .ok st' →
      noDerivedKeys st' cfg T id) := by
  have hgood : goodConfig cfg := goodConfig_of_getTypeConfig hcfg
  refine ⟨?_, ?_, ?_⟩
  · intro st data id now r st' hclean hcr
    obtain ⟨cfg', hcfg', hv, habs, hr, hst⟩ := createRecord_ok_inv hcr
    rw [hcfg] at hcfg'
    injection hcfg' with hcc
    subst hcc
    obtain ⟨hmt, hmi⟩ := validate_ok_inv hv
    subst hr
    subst hst
    exact recordIndexed_create hgood (colonFree_of_safePattern hmt)
      (colonFree_of_safePattern hmi) (noDerivedKeys_congr rfl hclean)
  · intro st id data now oldR r st' hobj htyO hidO hIdx hup hucf
    obtain ⟨cfg', oldR', hcfg', hv, hobj', hr, hst⟩ := updateRecord_ok_inv hup
    rw [hcfg] at hcfg'
    injection hcfg' with hcc
    subst hcc
    rw [hobj] at hobj'
    injection hobj' with hoo
    subst hoo
    obtain ⟨hmt, hmi⟩ := validate_ok_inv hv
    subst hr
    subst hst
    exact recordIndexed_update hgood (colonFree_of_safePattern hmt)
      (colonFree_of_safePattern hmi) htyO hidO (recordIndexed_congr rfl hIdx) hucf
  · intro st id rec st' hobj htyO hidO hIdx hdel
    obtain ⟨cfg', hcfg', hv, hcase⟩ := deleteRecord_ok_inv hdel
    rw [hcfg] at hcfg'
    injection hcfg' with hcc
    subst hcc
    rcases hcase with ⟨habs, _⟩ | ⟨rec', hobj', hst⟩
    · rw [hobj] at habs
      exact absurd habs (by simp)
    · rw [hobj] at hobj'
      injection hobj' with hoo
      subst hoo
      subst hst
      exact noDerivedKeys_delete htyO hidO (recordIndexed_congr rfl hIdx)

/-- Store after creating a `task` record whose `dueDate` holds an
unparseable timestamp; used by the C1 counterexample. -/
def c1CeSt : KVState :=
  match createRecord emptyStore "task" [("dueDate", "not-a-date")] "t1" wNow with
  | .ok out => out.2
  | .error _ => emptyStore

/-- Outcome of updating that record to a different unparseable `dueDate`:
both values encode to the same padded-`NaN` reverse timestamp, so the update
batch queues a delete and a put of one and the same descending-time key. -/
def c1CeOut : BaseRecord × KVState :=
  match updateRecord c1CeSt "task" "t1" [("dueDate", "also-bad")] wNow2 with
  | .ok out => out
  | .error _ => (⟨"", "", "", "", []⟩, emptyStore)

/-- C1, counterexample to the unconditional claim: a successful
`updateRecord` after which the derived-index invariant fails.  The old and
new `dueDate` are distinct unparseable strings with the same
reverse-timestamp encoding, so the concurrent index batch races a put
against a delete of the same descending-time key; in the delete-wins
serialization the key required for the new value is absent. -/
theorem c1_derived_index_counterexample :
    updateRecord c1CeSt "task" "t1" [("dueDate", "also-bad")] wNow2
        = .ok (c1CeOut.1, c1CeOut.2) ∧
    getTypeConfig "task" = some taskConfig ∧
    "dueDate" ∈ taskConfig.timeFields ∧
    getField c1CeOut.1 "dueDate" = some "also-bad" ∧
    reverseTimeIndexKey "task" "dueDate" "also-bad" "t1" ∉ c1CeOut.2.indexes ∧
    ¬ recordIndexed c1CeOut.2 taskConfig c1CeOut.1 := by
  have hkey : reverseTimeIndexKey "task" "dueDate" "also-bad" "t1" ∉ c1CeOut.2.indexes := by
    decide
  refine ⟨rfl, rfl, by decide, rfl, hkey, ?_⟩
  intro h
  exact hkey ((h.2.2.1 "dueDate" (by decide) (getReverseTimestamp "also-bad")).mpr
    ⟨"also-bad", rfl, by decide, rfl⟩)

/-- Concrete outcome of one `createRecord` call, used by the C1 witness. -/
def c1Out : BaseRecord × KVState :=
  match createRecord emptyStore "task" [("title", "Fix")] "abc" wNow with
  | .ok out => out
  | .error _ => (⟨"", "", "", "", []⟩, emptyStore)

/-- Witness for C1: creating a `task` record in the empty store, whose
derived keys are exactly those of the created record. -/
theorem c1_derived_index_invariant_witness :
    noDerivedKeys emptyStore taskConfig "task" "abc" ∧
    recordIndexed c1Out.2 taskConfig c1Out.1 := by
  have hclean : noDerivedKeys emptyStore taskConfig "task" "abc" := by
    refine ⟨?_, ?_, ?_, ?_⟩ <;> intro F hF v hmem <;> exact List.not_mem_nil _ hmem
  exact ⟨hclean, (c1_derived_index_invariant "task" taskConfig rfl).1 emptyStore
    [("title", "Fix")] "abc" wNow c1Out.1 c1Out.2 hclean rfl⟩

/-! ### Claim C9 -/

theorem find?_key_filter {l : List (String × BaseRecord)} {a k : String} (h : k ≠ a) :
    (l.filter (fun p => !(p.1 == a))).find? (fun p => p.1 == k)
      = l.find? (fun p => p.1 == k) := by
  induction l with
  | nil => rfl
  | cons x xs ih =>
    by_cases hx : x.1 = a
    · have hxa : (x.1 == a) = true := beq_iff_eq.mpr hx
      have hxk : (x.1 == k) = false :=
        beq_eq_false_iff_ne.mpr (by rw [hx]; exact Ne.symm h)
      simp [List.filter_cons, List.find?_cons, hxa, hxk, ih]
    · have hxa : (x.1 == a) = false := beq_eq_false_iff_ne.mpr hx
      by_cases hxk : x.1 = k
      · have hxk' : (x.1 == k) = true := beq_iff_eq.mpr hxk
        simp [List.filter_cons, List.find?_cons, hxa, hxk']
      · have hxk' : (x.1 == k) = false := beq_eq_false_iff_ne.mpr hxk
        simp [List.filter_cons, List.find?_cons, hxa, hxk', ih]

theorem getObject_executeBatch (st : KVState) (b : List IndexOperation) (k : String) :
    getObject (executeBatch st b) k = getObject st k := by
  unfold getObject
  rw [executeBatch_objects]

theorem getObject_putObject_ne {st : KVState} {a k : String} {r : BaseRecord}
    (h : k ≠ a) : getObject (putObject st a r) k = getObject st k := by
  unfold getObject putObject
  have h1 : ((a, r) :: st.objects.filter (fun p => !(p.1 == a))).find?
        (fun p => p.1 == k)
      = (st.objects.filter (fun p => !(p.1 == a))).find? (fun p => p.1 == k) :=
    List.find?_cons_of_neg _ (by simp only [beq_iff_eq]; exact Ne.symm h)
  rw [h1, find?_key_filter h]

/-- A `patchRecord` of one id cannot make another, absent id appear: the
update path only overwrites the primary key of the patched (hence existing)
record. -/
theorem patchRecord_preserves_absent {st : KVState} {T i id : String}
    {p : List (String × String)} {now : String} {r : BaseRecord} {st' : KVState}
    (h : patchRecord st T i p now = .ok (r, st'))
    (habs : getObject st (objectKey T id) = none) :
    getObject st' (objectKey T id) = none := by
  obtain ⟨oldR, hobj, hupd⟩ := patchRecord_ok_inv h
  obtain ⟨cfg, oldR', _, _, _, _, hst⟩ := updateRecord_ok_inv hupd
  subst hst
  rw [getObject_executeBatch]
  have hne : objectKey T id ≠ objectKey T i := by
    intro he
    rw [he, hobj] at habs
    exact absurd habs (by simp)
  rw [getObject_putObject_ne hne]
  exact habs

/-- Invariant of the `bulkPatch` per-item loop: one result per id in order,
the success and failure counters sum to the item count, and every id absent
from the store when the loop starts yields a failed item. -/
theorem bulkPatchLoop_spec (T : String) (patch : List (String × String)) (now : String) :
    ∀ (ids : List String) (st : KVState) (rs : List BulkItemResult) (s f : Nat)
      (stFin : KVState),
      bulkPatchLoop st T patch now ids = (rs, s, f, stFin) →
      rs.map (·.id) = ids ∧ s + f = ids.length ∧
      ∀ i ∈ ids, getObject st (objectKey T i) = none →
        ∃ item ∈ rs, item.id = i ∧ item.ok = false ∧ item.error.isSome := by
  intro ids
  induction ids with
  | nil =>
    intro st rs s f stFin h
    have h' : (([], 0, 0, st) : List BulkItemResult × Nat × Nat × KVState)
        = (rs, s, f, stFin) := h
    simp only [Prod.mk.injEq] at h'
    obtain ⟨h1, h2, h3, _⟩ := h'
    subst h1
    subst h2
    subst h3
    exact ⟨rfl, rfl, fun i hi => absurd hi (List.not_mem_nil _)⟩
  | cons a rest ih =>
    intro st rs s f stFin h
    cases hp : patchRecord st T a patch now with
    | ok pr =>
      obtain ⟨r, st'⟩ := pr
      rcases hrec : bulkPatchLoop st' T patch now rest with ⟨rs2, s2, f2, stFin2⟩
      unfold bulkPatchLoop at h
      simp only [hp, hrec, Prod.mk.injEq] at h
      obtain ⟨h1, h2, h3, _⟩ := h
      subst h1
      subst h2
      subst h3
      obtain ⟨hmap, hsum, hmiss⟩ := ih st' rs2 s2 f2 stFin2 hrec
      refine ⟨?_, ?_, ?_⟩
      · simp only [List.map_cons, hmap]
      · simp only [List.length_cons]
        omega
      · intro i hi habs
        rcases List.mem_cons.mp hi with rfl | hi'
        · obtain ⟨oldR, hobj, _⟩ := patchRecord_ok_inv hp
          rw [hobj] at habs
          exact absurd habs (by simp)
        · obtain ⟨item, hitem, hrest⟩ := hmiss i hi' (patchRecord_preserves_absent hp habs)
          exact ⟨item, List.mem_cons_of_mem _ hitem, hrest⟩
    | error e =>
      rcases hrec : bulkPatchLoop st T patch now rest with ⟨rs2, s2, f2, stFin2⟩
      unfold bulkPatchLoop at h
      simp only [hp, hrec, Prod.mk.injEq] at h
      obtain ⟨h1, h2, h3, _⟩ := h
      subst h1
      subst h2
      subst h3
      obtain ⟨hmap, hsum, hmiss⟩ := ih st rs2 s2 f2 stFin2 hrec
      refine ⟨?_, ?_, ?_⟩
      · simp only [List.map_cons, hmap]
      · simp only [List.length_cons]
        omega
      · intro i hi habs
        rcases List.mem_cons.mp hi with rfl | hi'
        · exact ⟨⟨false, i, none, some e⟩, List.mem_cons_self _ _, rfl, rfl, rfl⟩
        · obtain ⟨item, hitem, hrest⟩ := hmiss i hi' habs
          exact ⟨item, List.mem_cons_of_mem _ hitem, hrest⟩

/-- C9 (amended): a `bulkPatch` over a registered type and at most 100 ids
never throws: it returns one result per id in input order, the succeeded and
failed counters sum to the number of ids, and every id absent from the store
at call time is reported as a failed item carrying an error, the remaining
items being processed regardless.  (The original claim's promise that every
existing id is reported as succeeded is refuted separately: an existing id
whose merged record exceeds the size bound fails.) -/
theorem c9_bulk_patch_amended (T : String) (cfg : TypeConfig) (st : KVState)
    (ids : List String) (patch : List (String × String)) (now : String)
    (hcfg : getTypeConfig T = some cfg) (hlen : ids.length ≤ 100) :
    ∃ res stFin, bulkPatch st T ids patch now = .ok (res, stFin) ∧
      res.results.map (·.id) = ids ∧
      res.succeeded + res.failed = ids.length ∧
      ∀ i ∈ ids, getObject st (objectKey T i) = none →
        ∃ item ∈ res.results, item.id = i ∧ item.ok = false ∧ item.error.isSome := by
  rcases hloop : bulkPatchLoop st T patch now ids with ⟨rs, s, f, stFin⟩
  obtain ⟨hmap, hsum, hmiss⟩ := bulkPatchLoop_spec T patch now ids st rs s f stFin hloop
  refine ⟨⟨rs, s, f⟩, stFin, ?_, hmap, hsum, hmiss⟩
  unfold bulkPatch
  rw [except_bind_of_ok (show getTypeConfigE T = .ok cfg from by
    unfold getTypeConfigE; rw [hcfg])]
  rw [if_neg (by omega)]
  simp only [hloop]

/-- `updateRecord` throws `Record too large` when the replacement record
exceeds the configured size bound. -/
theorem updateRecord_too_large {st : KVState} {T id : String}
    {data : List (String × String)} {now : String} {cfg : TypeConfig}
    {oldR : BaseRecord}
    (hcfg : getTypeConfigE T = .ok cfg)
    (hv : validateTypeAndId T id = .ok ())
    (hobj : getObject st (objectKey T id) = some oldR)
    (hsz : sizeExceeded cfg
      (recordSize ⟨id, T, oldR.createdAt, now, mkOpenFields data⟩) = true) :
    updateRecord st T id data now = .error "Record too large" := by
  unfold updateRecord
  rw [except_bind_of_ok hcfg]
  rw [except_bind_of_ok hv]
  rw [except_bind_of_ok (show getRecord st T id = .ok (some oldR) from by
    unfold getRecord
    rw [except_bind_of_ok hv]
    simp only [hobj])]
  show (if sizeExceeded cfg
        (recordSize ⟨id, T, oldR.createdAt, now, mkOpenFields data⟩) = true then
      (Except.error "Record too large" : Except String (BaseRecord × KVState))
    else
      Except.ok (⟨id, T, oldR.createdAt, now, mkOpenFields data⟩,
        executeBatch (putObject st (objectKey T id)
            ⟨id, T, oldR.createdAt, now, mkOpenFields data⟩)
          (updateIndexesOps oldR ⟨id, T, oldR.createdAt, now, mkOpenFields data⟩ cfg)))
    = .error "Record too large"
  rw [if_pos hsz]

/-- A small existing `config` record, used by the C9 counterexample. -/
def c9Rec : BaseRecord := ⟨"c1", "config", wNow, wNow, [("environment", "prod")]⟩

/-- Store holding exactly that record, used by the C9 counterexample. -/
def c9St : KVState := ⟨[(objectKey "config" "c1", c9Rec)], []⟩

/-- A patch value longer than the `config` type's `maxRecordSize`. -/
def c9Big : String := ⟨List.replicate 51200 'a'⟩

/-- Size of the C9 counterexample's merged record, as a function of the
patched value's length. -/
theorem recordSize_c9 (v : String) :
    recordSize ⟨"c1", "config", wNow, wNow2, [("environment", "prod"), ("note", v)]⟩
      = 137 + v.length := by
  unfold recordSize entrySize
  simp only [List.map_cons, List.map_nil, List.sum_cons, List.sum_nil]
  rw [show ("id" : String).length = 2 from rfl,
    show ("c1" : String).length = 2 from rfl,
    show ("type" : String).length = 4 from rfl,
    show ("config" : String).length = 6 from rfl,
    show ("createdAt" : String).length = 9 from rfl,
    show ("updatedAt" : String).length = 9 from rfl,
    show wNow.length = 24 from rfl,
    show wNow2.length = 24 from rfl,
    show ("environment" : String).length = 11 from rfl,
    show ("prod" : String).length = 4 from rfl,
    show ("note" : String).length = 4 from rfl]
  omega

/-- A one-id `bulkPatch` whose `patchRecord` throws converts the error into
a failed item and still returns ok. -/
theorem bulkPatch_single_error {st : KVState} {T i : String}
    {patch : List (String × String)} {now : String} {cfg : TypeConfig} {e : String}
    (hcfg : getTypeConfigE T = .ok cfg)
    (hp : patchRecord st T i patch now = .error e) :
    bulkPatch st T [i] patch now = .ok (⟨[⟨false, i, none, some e⟩], 0, 1⟩, st) := by
  unfold bulkPatch
  rw [except_bind_of_ok hcfg]
  rw [if_neg (show ¬ 100 < ([i] : List String).length from by simp)]
  rw [show bulkPatchLoop st T patch now [i] = ([⟨false, i, none, some e⟩], 0, 1, st) from by
    unfold bulkPatchLoop
    rw [hp]
    rfl]

/-- C9, counterexample to the unconditional claim: an id that does exist can
still be reported as failed, refuting the claim that every id other than the
missing ones is patched and reported as succeeded.  Patching the existing
record with a value that pushes the merged record over `maxRecordSize` makes
its per-item `patchRecord` throw, and the item is recorded as failed while
the call still returns ok. -/
theorem c9_bulk_patch_counterexample :
    getObject c9St (objectKey "config" "c1") = some c9Rec ∧
    bulkPatch c9St "config" ["c1"] [("note", c9Big)] wNow2
      = .ok (⟨[⟨false, "c1", none, some "Record too large"⟩], 0, 1⟩, c9St) := by
  have hlen : c9Big.length = 51200 := by
    have h1 : c9Big.length = (List.replicate 51200 'a').length := rfl
    rw [h1, List.length_replicate]
  have hsz : sizeExceeded configConfig (recordSize ⟨"c1", "config", c9Rec.createdAt,
      wNow2, mkOpenFields [("environment", "prod"), ("note", c9Big)]⟩) = true := by
    rw [show mkOpenFields [("environment", "prod"), ("note", c9Big)]
        = [("environment", "prod"), ("note", c9Big)] from rfl]
    rw [show c9Rec.createdAt = wNow from rfl]
    rw [recordSize_c9 c9Big, hlen]
    decide
  have hupd : updateRecord c9St "config" "c1"
      [("environment", "prod"), ("note", c9Big)] wNow2 = .error "Record too large" :=
    updateRecord_too_large rfl rfl rfl hsz
  have hpatch : patchRecord c9St "config" "c1" [("note", c9Big)] wNow2
      = .error "Record too large" := by
    unfold patchRecord
    rw [except_bind_of_ok (show getRecord c9St "config" "c1" = .ok (some c9Rec) from rfl)]
    show updateRecord c9St "config" "c1" (mergeSpread c9Rec [("note", c9Big)]) wNow2
      = .error "Record too large"
    rw [show mergeSpread c9Rec [("note", c9Big)]
        = [("environment", "prod"), ("note", c9Big)] from rfl]
    exact hupd
  exact ⟨rfl, bulkPatch_single_error rfl hpatch⟩

/-- Witness for C9: a one-id bulk patch of an absent id on the empty store. -/
theorem c9_bulk_patch_amended_witness :
    getTypeConfig "task" = some taskConfig ∧
    (["x1"] : List String).length ≤ 100 ∧
    (∃ res stFin, bulkPatch emptyStore "task" ["x1"] [] wNow = .ok (res, stFin) ∧
      res.results.map (·.id) = ["x1"] ∧
      res.succeeded + res.failed = (["x1"] : List String).length ∧
      ∀ i ∈ (["x1"] : List String), getObject emptyStore (objectKey "task" i) = none →
        ∃ item ∈ res.results, item.id = i ∧ item.ok = false ∧ item.error.isSome) :=
  ⟨rfl, by decide,
    c9_bulk_patch_amended "task" taskConfig emptyStore ["x1"] [] wNow rfl (by decide)⟩

end GasKV
